import Mathlib

/-!
# ownAgent — formal verification of the spec claims

Shallow embedding, in Lean 4, of the parts of the `ownAgent` repository that
the frozen claims C1–C10 are about:

* `agent_tools/base.py` — `validate_path` (the path guard), over a lexical
  POSIX path model (component lists; symlinks are not modelled, the guard's
  own behaviour on a symlink-free filesystem is what is embedded);
* `ag.py` — `ContextManager` (history mutators, `reset`, `load_history`,
  `_build_system_prompt`), `ToolExecutor` (`register`, `get_definitions`),
  `StreamInterpreter.parse_stream`, `AgentRuntime._robust_json_parse` and
  `AgentRuntime.step`;
* `server.py` — `get_session_path` and the (absent) session-id validation of
  the HTTP surface.

Python `dict`s keyed by consecutive integers are modelled as association
lists, Python strings as Lean `String`s, `json.loads` as an executable
recursive-descent parser over `List Char` mirroring CPython's `json`
grammar (strict mode).  Machine floats never matter for any claim: JSON
numbers are kept as their lexemes.
-/

namespace OwnAgent

/-! ## Path model (POSIX, lexical)

`agent_tools/base.py` works with `pathlib.Path` on strings.  We model a path
as its string, split into components on `/`; `resolve()` is modelled
lexically (no symlinks): absolutise against the cwd, then collapse `.` and
`..`, with `..` at the root staying at the root — exactly `Path.resolve`'s
arithmetic on a symlink-free tree. -/

/-- Split a character list into groups separated by `/` (keeping empty
groups, like `str.split("/")`). -/
def splitSlash : List Char → List (List Char)
  | [] => [[]]
  | c :: rest =>
    if c = '/' then [] :: splitSlash rest
    else
      match splitSlash rest with
      | [] => [[c]]
      | g :: gs => (c :: g) :: gs

/-- Split a path string into its non-empty components. -/
def splitParts (s : String) : List String :=
  ((splitSlash s.data).filter (fun c => c ≠ [])).map String.mk

/-- `s` is an absolute POSIX path. -/
def isAbsolute (s : String) : Bool :=
  match s.data with
  | '/' :: _ => true
  | _ => false

/-- One step of lexical canonicalisation: `.` is dropped, `..` pops the last
component (staying put at the root), anything else is pushed. -/
def normStep (stack : List String) (c : String) : List String :=
  if c = "." then stack
  else if c = ".." then stack.dropLast
  else stack ++ [c]

/-- Collapse `.` and `..` in an absolute component list. -/
def normalizeParts (cs : List String) : List String := cs.foldl normStep []

/-- Render an absolute component list back to a path string
(`[] ↦ "/"`, `["a","b"] ↦ "/a/b"`), as `str(Path(...))` would. -/
def renderAbs (parts : List String) : String :=
  if parts = [] then "/" else parts.foldl (fun acc c => acc ++ "/" ++ c) ""

/-- Ambient process state used by `pathlib` / `os.path`: the current working
directory (`os.getcwd()`, always absolute) and the user's home directory. -/
structure PathEnv where
  cwd : String
  home : String

/-- `Path(s).resolve()` on a symlink-free tree: absolutise against the cwd,
then canonicalise.  Returns the component list of the canonical path. -/
def resolveParts (env : PathEnv) (s : String) : List String :=
  if isAbsolute s then normalizeParts (splitParts s)
  else normalizeParts (splitParts env.cwd ++ splitParts s)

/-- `os.path.expanduser`: a leading bare `~` is replaced by the home
directory.  (CPython also expands `~user` via the pwd database; an unknown
user leaves the string unchanged, which is the behaviour modelled here for
every `~user` form.) -/
def expanduser (env : PathEnv) (s : String) : String :=
  match s.data with
  | ['~'] => env.home
  | '~' :: '/' :: rest => env.home ++ String.mk ('/' :: rest)
  | _ => s

/-- The error raised by the path guard (`ValueError` in the source; the spec
calls it `PathEscape`). -/
inductive PathError where
  | PathEscape
  deriving DecidableEq, Repr

/-- The expanded, resolved form of the guard's input: `~` expanded, absolute
paths resolved on their own, relative paths resolved against the resolved
workspace root — the `target_path` of `validate_path`. -/
def guardTarget (env : PathEnv) (path : String) (workspace_root : String) :
    List String :=
  let p := expanduser env path
  if isAbsolute p then normalizeParts (splitParts p)
  else normalizeParts (resolveParts env workspace_root ++ splitParts p)

/-- `agent_tools/base.py::validate_path` — expand `~`, resolve the workspace
root, resolve the target (absolute paths on their own, relative paths
against the resolved root), and accept exactly when the root's canonical
components are a prefix of the target's (`Path.is_relative_to` is lexical
on the parts of two already-resolved paths).  Returns the canonical target
path string. -/
def validate_path (env : PathEnv) (path : String) (workspace_root : String) :
    Except PathError String :=
  let rootParts := resolveParts env workspace_root
  let targetParts := guardTarget env path workspace_root
  if rootParts.isPrefixOf targetParts then
    .ok (renderAbs targetParts)
  else
    .error .PathEscape

/-- A concrete ambient process state for the path-guard witnesses:
cwd `/w`, home `/home/u`. -/
def envW : PathEnv := ⟨"/w", "/home/u"⟩

/-! ## Conversation data model (`ag.py`)

The history entries of `ContextManager.history` are OpenAI-style message
dicts.  We model them as a tagged sum.  Assistant messages carry the three
optional fields assembled by `StreamInterpreter.parse_stream`
(`reasoning_content`, `content`, `tool_calls`); `none` models Python
`None`/absent. -/

/-- One entry of an assistant message's `tool_calls` list, as assembled by
the stream interpreter (`{id, type: "function", function: {name,
arguments}}`; the constant `type` field is omitted). -/
structure ToolCall where
  id : String
  name : String
  args : String
  deriving DecidableEq, Repr

/-- A conversation message (`role` plus the per-role fields used by the
code). -/
inductive Msg where
  | system (content : String)
  | user (content : String)
  | assistant (reasoning : Option String) (content : Option String)
      (toolCalls : Option (List ToolCall))
  | tool (callId : String) (content : String)
  deriving DecidableEq, Repr

/-! ## `ContextManager` (`ag.py`) -/

/-- `ag.py::ContextManager._build_system_prompt` — the system prompt is an
f-string that splices the workspace-root string into a fixed template, then
appends an "Available Skills" section when a skills manager is present.
The (very long) fixed text is abbreviated here; the splice points of
`{workspace}` are kept, which is all any claim depends on. -/
def build_system_prompt (workspace : String) (skillsSummary : Option String) :
    String :=
  let base :=
    "You are  Code, a highly skilled software engineer with extensive "
    ++ "knowledge in many programming languages, frameworks, design patterns, "
    ++ "and best practices.\n====\nTOOL USE\n...\nCAPABILITIES\n"
    ++ "- ... a recursive list of all filepaths in the current workspace "
    ++ "directory (" ++ workspace ++ ") will be included in environment_details."
    ++ "\n====\nRULES\n- The project base directory is: " ++ workspace
    ++ "\n- You are stuck operating from '" ++ workspace ++ "'...\n"
    ++ "====\nSYSTEM INFORMATION\n...\nCurrent Workspace Directory: "
    ++ workspace ++ "\n====\nOBJECTIVE\n...\n"
  match skillsSummary with
  | none => base
  | some summary =>
    base ++ "\n\n## Available Skills\n\nThe following skills are available "
    ++ "to assist with specific tasks:\n\n" ++ summary ++ "\n\nWhen a task "
    ++ "matches a skill's description, you can use the `get_skill` tool...\n"

/-- `ag.py::ContextManager.reset` — `workspace = os.getcwd()` is computed,
then: if the history is non-empty, keep exactly its first message
(the freshly read `workspace` is *not* used); only if the history is empty
(the "should not happen" branch) is a new system prompt built from the
current workspace. -/
def reset (cwd : String) (skillsSummary : Option String) (history : List Msg) :
    List Msg :=
  match history with
  | [] => [Msg.system (build_system_prompt cwd skillsSummary)]
  | h0 :: _ => [h0]

/-! ## `ToolExecutor` (`ag.py`)

`register(func, args_model)` stores `(func, args_model)` under
`func.__name__` in the `_execution_map` dict (a Python dict assignment:
update in place if the key exists, append otherwise) and *appends* the
generated schema to the `_schemas` list.  `get_definitions` returns
`_schemas`; `execute` looks the name up in `_execution_map`.  The handler
and argument-model pair is opaque to every claim, so it is a type
parameter `H`; the generated OpenAI schema is determined by the
registered tool, abstracted as type `σ`. -/

/-- A tool as passed to `register`: its `__name__`, its opaque generated
schema (`generate_openai_schema(func, args_model)` is a pure function of
the tool), and its opaque execution payload (`(func, args_model)`). -/
structure Tool (σ H : Type) where
  name : String
  schema : σ
  payload : H

/-- `ToolExecutor.__init__` state: `_execution_map` (an insertion-ordered
dict, modelled as an association list) and `_schemas`. -/
structure ToolExecutor (σ H : Type) where
  execMap : List (String × H)
  schemas : List σ

/-- Python dict assignment `m[k] = v`: replace in place if the key exists,
append otherwise. -/
def dictSet {α : Type} (m : List (String × α)) (k : String) (v : α) :
    List (String × α) :=
  if m.any (fun kv => kv.1 = k) then
    m.map (fun kv => if kv.1 = k then (k, v) else kv)
  else m ++ [(k, v)]

/-- `ag.py::ToolExecutor.register` — store the execution payload under the
tool's name and append the generated schema to `_schemas`. -/
def ToolExecutor.register {σ H : Type} (ex : ToolExecutor σ H)
    (t : Tool σ H) : ToolExecutor σ H :=
  { execMap := dictSet ex.execMap t.name t.payload
    schemas := ex.schemas ++ [t.schema] }

/-- `ag.py::ToolExecutor.get_definitions` — return `_schemas`. -/
def ToolExecutor.get_definitions {σ H : Type} (ex : ToolExecutor σ H) :
    List σ :=
  ex.schemas

/-- `ag.py::ToolExecutor.execute`, restricted to its lookup step: the
payload the dispatcher runs for a name (`None` models the
"Tool not found" branch). -/
def ToolExecutor.lookupTool {σ H : Type} (ex : ToolExecutor σ H)
    (name : String) : Option H :=
  (ex.execMap.find? (fun kv => kv.1 = name)).map (fun kv => kv.2)

/-! ## HTTP session surface (`server.py`)

`server.py` exposes `GET /sessions`, `POST /sessions/new`,
`POST /sessions/{session_id}/load` and `POST /chat`.  Session files live at
`get_session_path(user_id, session_id) =
sessions/{user_id}_session_{session_id}.json`.  The source contains **no**
validation of `session_id` anywhere (no regex, no 400 branch), and no
DELETE endpoint at all, although `tests/test_new_features.py` exercises
`DELETE /sessions/{id}` and expects 400 for IDs such as `session.123`. -/

/-- The session-id pattern the claim (and the repo's own test) requires at
the HTTP boundary: `^[A-Za-z0-9_\x2d]{1,64}$`. -/
def sessionIdOk (s : String) : Bool :=
  decide (1 ≤ s.data.length) && decide (s.data.length ≤ 64) &&
  s.data.all (fun c => c.isAlpha || c.isDigit || c == '_' || c == '-')

/-- `server.py::get_session_path` —
`SESSIONS_DIR / f"{user_id}_session_{session_id}.json"` rendered as the
relative path string the server hands to the filesystem. -/
def get_session_path (user_id : Nat) (session_id : String) : String :=
  "sessions/" ++ toString user_id ++ "_session_" ++ session_id ++ ".json"

/-- The possible control-flow outcomes of `load_session` that matter to the
claim: a 400 rejection (which the claim requires for bad IDs), the
"Session not found" reply, or success touching the given path. -/
inductive LoadOutcome where
  | badRequest
  | notFound
  | ok (path : String)
  deriving DecidableEq, Repr

/-- `server.py::load_session`, session-id handling only: the endpoint
computes `get_session_path(user_id, session_id)` and immediately calls
`path.exists()` on it — a filesystem operation — with **no** validation of
`session_id` beforehand; there is no branch returning a 400.
`fileExists` abstracts the state of the filesystem. -/
def load_session (user_id : Nat) (session_id : String)
    (fileExists : String → Bool) : LoadOutcome :=
  let path := get_session_path user_id session_id
  if fileExists path then .ok path else .notFound

/-! ## `StreamInterpreter.parse_stream` (`ag.py`)

The interpreter folds the vendor's chunk stream into three accumulators:
a reasoning string, a content string, and a per-`index` buffer of tool-call
fragments (`tool_calls_buffer: index -> {id, name, args}`, a Python dict).
Absent string fields of a fragment are modelled as `""`: Python treats
`None` and `""` identically here (both falsy, both concatenate to nothing),
but the *presence of a fragment for an index* is significant — it creates
the buffer slot even if all its fields are empty. -/

/-- One tool-call fragment of a streamed delta (`tc.index`, `tc.id`,
`tc.function.name`, `tc.function.arguments`). -/
structure ToolFrag where
  index : Nat
  id : String
  name : String
  args : String
  deriving DecidableEq, Repr

/-- One streamed chunk's delta (`reasoning_content`, `content`,
`tool_calls`).  Chunks with no choices are skipped by the code and are not
modelled. -/
structure Chunk where
  reasoning : String
  content : String
  toolCalls : List ToolFrag
  deriving DecidableEq, Repr

/-- A slot of `tool_calls_buffer`: `{"id": …, "name": …, "args": …}`. -/
structure BufEntry where
  id : String
  name : String
  args : String
  deriving DecidableEq, Repr

/-- `if idx not in tool_calls_buffer: tool_calls_buffer[idx] = {...}` —
create the slot on first touch (dict insertion order: appended at the
end). -/
def bufTouch (buf : List (Nat × BufEntry)) (i : Nat) : List (Nat × BufEntry) :=
  if buf.any (fun kv => kv.1 = i) then buf else buf ++ [(i, ⟨"", "", ""⟩)]

/-- Process one tool-call fragment: create the slot if needed, then
concatenate the `id`, `name` and `arguments` pieces onto it. -/
def bufAdd (buf : List (Nat × BufEntry)) (f : ToolFrag) :
    List (Nat × BufEntry) :=
  (bufTouch buf f.index).map (fun kv =>
    if kv.1 = f.index then
      (kv.1, ⟨kv.2.id ++ f.id, kv.2.name ++ f.name, kv.2.args ++ f.args⟩)
    else kv)

/-- The interpreter's accumulator state. -/
structure StreamState where
  reasoning : String
  content : String
  buf : List (Nat × BufEntry)
  deriving DecidableEq, Repr

/-- Fold one chunk into the accumulators (cases A, B and C of the loop
body of `parse_stream`). -/
def stepChunk (st : StreamState) (c : Chunk) : StreamState :=
  { reasoning := st.reasoning ++ c.reasoning
    content := st.content ++ c.content
    buf := c.toolCalls.foldl bufAdd st.buf }

/-- Run the whole chunk stream through the accumulators. -/
def runChunks (cs : List Chunk) : StreamState :=
  cs.foldl stepChunk ⟨"", "", []⟩

/-- End-of-stream assembly of the tool-call list:
`for idx in sorted(tool_calls_buffer.keys()): …` — emit the buffer entries
in ascending `index` order. -/
def assembleToolCalls (buf : List (Nat × BufEntry)) : List ToolCall :=
  (List.insertionSort (· ≤ ·) (buf.map (fun kv => kv.1))).map (fun i =>
    match buf.find? (fun kv => kv.1 = i) with
    | some kv => ToolCall.mk kv.2.id kv.2.name kv.2.args
    | none => ToolCall.mk "" "" "")

/-- `ag.py::StreamInterpreter.parse_stream`, final `full_message` event:
the assembled assistant message, each field `None` exactly when its
accumulator is empty. -/
def parse_stream_message (cs : List Chunk) : Msg :=
  let st := runChunks cs
  let tcs := assembleToolCalls st.buf
  Msg.assistant
    (if st.reasoning = "" then none else some st.reasoning)
    (if st.content = "" then none else some st.content)
    (if tcs = [] then none else some tcs)

/-! ### The canonical content of a chunk stream -/

/-- All tool-call fragments of a stream, in arrival order. -/
def allFrags (cs : List Chunk) : List ToolFrag :=
  (cs.map Chunk.toolCalls).flatten

/-- The concatenation of all reasoning deltas. -/
def totalReasoning (cs : List Chunk) : String :=
  cs.foldl (fun acc c => acc ++ c.reasoning) ""

/-- The concatenation of all content deltas. -/
def totalContent (cs : List Chunk) : String :=
  cs.foldl (fun acc c => acc ++ c.content) ""

/-- Per-index concatenation over a raw fragment list. -/
def perIndexF (fs : List ToolFrag) (i : Nat) : BufEntry :=
  fs.foldl (fun e f =>
    if f.index = i then ⟨e.id ++ f.id, e.name ++ f.name, e.args ++ f.args⟩
    else e) ⟨"", "", ""⟩

/-- Whether any fragment (even an all-empty one) arrived for index `i`. -/
def fragPresent (cs : List Chunk) (i : Nat) : Bool :=
  (allFrags cs).any (fun f => f.index = i)

/-- The concatenation, in arrival order, of the `id`/`name`/`arguments`
pieces for index `i`. -/
def perIndexEntry (cs : List Chunk) (i : Nat) : BufEntry :=
  perIndexF (allFrags cs) i

/-- The touched indices in ascending order, computed canonically from the
fragment sequence. -/
def sortedTouched (cs : List Chunk) : List Nat :=
  List.insertionSort (· ≤ ·) (((allFrags cs).map ToolFrag.index).dedup)

/-- The buffer only depends on the fragment sequence. -/
def bufOfFrags (fs : List ToolFrag) : List (Nat × BufEntry) :=
  fs.foldl bufAdd []

/-- The invariant tying the interpreter's buffer to the canonical per-index
content of the processed fragments. -/
def BufInv (fs : List ToolFrag) (buf : List (Nat × BufEntry)) : Prop :=
  (buf.map Prod.fst).Nodup ∧
  (∀ i : Nat, buf.any (fun kv => kv.1 = i) = fs.any (fun f => f.index = i)) ∧
  (∀ kv ∈ buf, kv.2 = perIndexF fs kv.1)

/-- The canonical mapped tool-call for index `i`. -/
def canonCall (cs : List Chunk) (i : Nat) : ToolCall :=
  ToolCall.mk (perIndexEntry cs i).id (perIndexEntry cs i).name
    (perIndexEntry cs i).args

/-- A chunk stream split in three (reasoning split across two chunks). -/
def csSplit : List Chunk :=
  [⟨"He", "", []⟩, ⟨"llo", "wor", []⟩, ⟨"", "ld", []⟩]

/-- The same stream delivered as a single chunk. -/
def csWhole : List Chunk :=
  [⟨"Hello", "world", []⟩]

/-! ## `ContextManager` mutators and `AgentRuntime.step` (`ag.py`)

The history mutators each append exactly one message.  `step` is the agent
loop: append the user message, then iterate (bounded by
`max_steps = 100`): build the outgoing request from a *copy* of the
history plus, when the structured todo state is non-empty, an ephemeral
system reminder; stream the model; forward delta events; on the assembled
message, classify and append; execute tool calls sequentially, appending
one tool message per call; stop early on an `ask_user` interrupt or the
`attempt_completion` tool.

The model call and tools are the adversarial environment: each loop
iteration is driven by a `TurnInput` holding the forwarded deltas, the
assembled assistant message (`none` models a failed transport, whose
stream is `None`), and the per-call tool results. -/

/-- `ContextManager.add_user_msg` — append one user message. -/
def add_user_msg (h : List Msg) (content : String) : List Msg :=
  h ++ [Msg.user content]

/-- `ContextManager.add_assistant_msg` — append the given message. -/
def add_assistant_msg (h : List Msg) (m : Msg) : List Msg :=
  h ++ [m]

/-- `ContextManager.add_tool_output` — append one tool message carrying the
`tool_call_id` and the output text. -/
def add_tool_output (h : List Msg) (toolCallId content : String) : List Msg :=
  h ++ [Msg.tool toolCallId content]

/-- `ContextManager.load_history` — keep the resident system prompt
(`history[0]`), replace the rest with the loaded messages, skipping the
loaded file's own leading system message; an empty loaded history is a
no-op.  (`take 1` models `self.history[0]` on the never-empty histories the
code maintains.) -/
def load_history (h : List Msg) (loaded : List Msg) : List Msg :=
  match loaded with
  | [] => h
  | l0 :: rest =>
    h.take 1 ++ (match l0 with
      | Msg.system _ => rest
      | _ => l0 :: rest)

/-- The assembled assistant message as the runtime consumes it
(`full_message` without the fixed `role` field). -/
structure AsmMsg where
  reasoning : Option String
  content : Option String
  toolCalls : Option (List ToolCall)
  deriving DecidableEq, Repr

/-- View a `Msg` as an assembled assistant message (the interpreter's
`full_message` always is one). -/
def Msg.asAssistant : Msg → AsmMsg
  | .assistant r c t => ⟨r, c, t⟩
  | _ => ⟨none, none, none⟩

/-- Python truthiness of an optional string (`None` and `""` are falsy). -/
def truthyS : Option String → Bool
  | none => false
  | some s => s ≠ ""

/-- Python truthiness of the optional tool-call list (`None` and `[]` are
falsy). -/
def truthyL : Option (List ToolCall) → Bool
  | none => false
  | some l => !l.isEmpty

/-- One adversarial tool execution: the output string recorded in the tool
message (`str(result)` / `result.output`), and whether the result carried
the `data.action == "ask_user"` interrupt signal. -/
structure ExecR where
  output : String
  interrupt : Bool
  deriving DecidableEq, Repr

/-- One forwarded incremental event (`thinking_delta` or `content_delta`);
these are the only event kinds the interpreter forwards before the full
message. -/
structure DeltaEv where
  thinking : Bool
  text : String
  deriving DecidableEq, Repr

/-- The events `step` yields to its caller. -/
inductive Event where
  | thinkingDelta (s : String)
  | contentDelta (s : String)
  | toolCall (id name args : String)
  | toolOutput (id output : String)
  | interrupt
  | finished (s : String)
  | error (s : String)
  deriving DecidableEq, Repr

def DeltaEv.toEvent (d : DeltaEv) : Event :=
  if d.thinking then .thinkingDelta d.text else .contentDelta d.text

def Event.isError : Event → Bool
  | .error _ => true
  | _ => false

def Event.isToolCall : Event → Bool
  | .toolCall _ _ _ => true
  | _ => false

/-- The adversarial environment of one loop iteration: the todo-state JSON
dump (`none` when `tool_context.todo_state` is falsy), the forwarded
deltas, the assembled message (`none` when the transport returned no
stream), and the tool results consumed in order by this iteration's
calls. -/
structure TurnInput where
  todoJson : Option String
  deltas : List DeltaEv
  resp : Option AsmMsg
  execs : List ExecR
  deriving DecidableEq, Repr

/-- The ephemeral system message injected into the outgoing request when
the todo state is non-empty (`system_injection` in `step`; the long fixed
instruction text is abbreviated). -/
def todoReminder (todoJson : String) : Msg :=
  Msg.system ("## Current Todo List Status (JSON)\n\n" ++ todoJson
    ++ "\n\nCRITICAL INSTRUCTION: \n1. **PRIORITY 1**: Check for any task "
    ++ "with status \"in_progress\"....")

/-- The ephemeral messages appended to the outgoing copy: the todo
reminder when the todo state is truthy, nothing otherwise. -/
def optReminder : Option String → List Msg
  | some tj => [todoReminder tj]
  | none => []

/-- The message the runtime persists for an assembled response
(`msg_to_save`): the assembled fields, with the synthetic content
`"(Model stopped after thinking)"` when the response carried only
reasoning. -/
def savedMsg (m : AsmMsg) : Msg :=
  Msg.assistant m.reasoning
    (if !truthyS m.content && !truthyL m.toolCalls && truthyS m.reasoning then
      some "(Model stopped after thinking)"
    else m.content)
    m.toolCalls

/-- Execute the tool calls of one assistant message in order
(the `for tc in tool_calls` body of `step`): per call, yield `tool_call`,
run the tool, append the tool message, yield `tool_output`; stop the whole
turn on an `ask_user` interrupt or on `attempt_completion`.
Returns (appended tool messages, yielded events, turn-ended-early). -/
def runCalls : List ToolCall → List ExecR → List Msg × List Event × Bool
  | [], _ => ([], [], false)
  | tc :: rest, execs =>
    let e := execs.headD ⟨"", false⟩
    let evs0 := [Event.toolCall tc.id tc.name tc.args,
                 Event.toolOutput tc.id e.output]
    if e.interrupt then
      ([Msg.tool tc.id e.output], evs0 ++ [Event.interrupt], true)
    else if tc.name = "attempt_completion" then
      ([Msg.tool tc.id e.output], evs0 ++ [Event.finished e.output], true)
    else
      let r := runCalls rest execs.tail
      (Msg.tool tc.id e.output :: r.1, evs0 ++ r.2.1, r.2.2)

/-- The result of a turn: the final persistent history, the yielded
events, and the message lists sent to the transport (one per loop
iteration). -/
structure StepResult where
  history : List Msg
  events : List Event
  requests : List (List Msg)
  deriving DecidableEq, Repr

/-- `AgentRuntime.max_steps`. -/
def MAX_STEPS : Nat := 100

/-- The `while current_step < self.max_steps` loop of `AgentRuntime.step`.
Each iteration: build `messages_to_send` from a copy of the history plus
the optional todo reminder; send it; handle the stream.  A `none` response
models `send_stream_request` returning `None`: the interpreter yields
`error: No stream` and never yields a full message, so the runtime yields
its empty-response error and breaks.  An assembled message that is
entirely empty finishes the turn; one with only reasoning is saved with
the synthetic content `"(Model stopped after thinking)"`.  Tool-calling
iterations increment the step counter; iterations without tool calls
finish the turn. -/
def stepLoop : List TurnInput → Nat → List Msg → StepResult
  | [], _, h => ⟨h, [], []⟩
  | inp :: rest, stepCount, h =>
    if stepCount < MAX_STEPS then
      let req := h ++ optReminder inp.todoJson
      match inp.resp with
      | none =>
        ⟨h, [Event.error "Error: No stream",
             Event.error "Encountered empty response from LLM"], [req]⟩
      | some m =>
        let ds := inp.deltas.map DeltaEv.toEvent
        let hasC := truthyS m.content
        let hasT := truthyL m.toolCalls
        let hasR := truthyS m.reasoning
        if !hasC && !hasT && !hasR then
          ⟨h, ds ++ [Event.finished "Done"], [req]⟩
        else
          let h1 := add_assistant_msg h (savedMsg m)
          if hasT then
            let r := runCalls (m.toolCalls.getD []) inp.execs
            let h2 := h1 ++ r.1
            if r.2.2 then
              ⟨h2, ds ++ r.2.1, [req]⟩
            else
              let rec' := stepLoop rest (stepCount + 1) h2
              ⟨rec'.history, ds ++ r.2.1 ++ rec'.events, req :: rec'.requests⟩
          else
            ⟨h1, ds ++ [Event.finished "Done"], [req]⟩
    else ⟨h, [], []⟩

/-- `AgentRuntime.step` — append the user message, then run the loop with
the step counter at 0. -/
def step (userInput : String) (inputs : List TurnInput) (h : List Msg) :
    StepResult :=
  stepLoop inputs 0 (add_user_msg h userInput)

/-! ## C7 — the MAX_STEPS cap -/

/-- An iteration in which the model requests exactly one ordinary tool
call (not `attempt_completion`, not interrupting): the loop keeps
iterating after it. -/
def OneToolTurn (inp : TurnInput) : Prop :=
  ∃ m tc, inp.resp = some m ∧ m.toolCalls = some [tc] ∧
    tc.name ≠ "attempt_completion" ∧
    (inp.execs.headD ⟨"", false⟩).interrupt = false

/-- A concrete ordinary tool-calling iteration (one `list_files`-style call,
no interrupt, not `attempt_completion`). -/
def tti : TurnInput :=
  ⟨none, [], some ⟨none, some "w", some [⟨"c", "list_files", ""⟩]⟩,
   [⟨"ok", false⟩]⟩

/-- A chunk stream whose single tool-call fragment carries no `id`. -/
def csNoId : List Chunk := [⟨"", "", [⟨0, "", "write_to_file", ""⟩]⟩]

/-! ## C10 — frame properties of the mutators and of `step` -/

def Msg.isSystem : Msg → Bool
  | .system _ => true
  | _ => false

/-! ## C1 — the history-shape invariant

`wfRun pending msgs` walks a message sequence carrying the list of
tool-calls still awaiting their responses: a tool message must answer the
next pending call (same `call_id`, declared order); an assistant message
resets the pending list to its own calls; a user or system message
abandons any outstanding calls (which is what an early-ended turn leaves
behind).  A history is well-shaped when its head is the system prompt and
the walk of its tail never fails. -/

def wfRun : List ToolCall → List Msg → Option (List ToolCall)
  | pending, [] => some pending
  | [], Msg.tool _ _ :: _ => none
  | tc :: pend, Msg.tool cid _ :: rest =>
    if cid = tc.id then wfRun pend rest else none
  | _, Msg.assistant _ _ tcs :: rest => wfRun (tcs.getD []) rest
  | _, Msg.system _ :: rest => wfRun [] rest
  | _, Msg.user _ :: rest => wfRun [] rest

/-- A history is well-shaped: index 0 is a system message and every run of
tool messages answers, in declared order, an initial prefix of the
tool-calls of the assistant message directly before it. -/
def historyWF (h : List Msg) : Bool :=
  match h with
  | Msg.system _ :: rest => (wfRun [] rest).isSome
  | _ => false

/-- The number of tool-calls with the given id among the assistant
messages of the first `k` history entries. -/
def precCount : List Msg → Nat → String → Nat
  | _, 0, _ => 0
  | [], _ + 1, _ => 0
  | m :: rest, k + 1, cid =>
    (match m with
     | Msg.assistant _ _ (some tcs) => tcs.countP (fun tc => tc.id == cid)
     | _ => 0) + precCount rest k cid

/-! ### The reachable histories

`ReachableAll` closes the initial history under every mutation the claim
lists — including a bare `add_assistant_msg` (whose argument is `Any` in
the source) and a bare `add_tool_output` with an arbitrary `call_id`.
`ReachableLoop` restricts assistant/tool appends to those the `step` loop
itself performs (the loading of a saved history is modelled by loading any
reachable history, which is what `save_history` writes). -/

inductive ReachableAll : List Msg → Prop where
  | init (cwd : String) (skills : Option String) :
      ReachableAll [Msg.system (build_system_prompt cwd skills)]
  | addUser (c : String) {h : List Msg} :
      ReachableAll h → ReachableAll (add_user_msg h c)
  | addAssistant (m : Msg) {h : List Msg} :
      ReachableAll h → ReachableAll (add_assistant_msg h m)
  | addToolOutput (cid out : String) {h : List Msg} :
      ReachableAll h → ReachableAll (add_tool_output h cid out)
  | doReset (cwd : String) (skills : Option String) {h : List Msg} :
      ReachableAll h → ReachableAll (reset cwd skills h)
  | doLoad {h h' : List Msg} :
      ReachableAll h → ReachableAll h' → ReachableAll (load_history h h')
  | turn (u : String) (inputs : List TurnInput) {h : List Msg} :
      ReachableAll h → ReachableAll (step u inputs h).history

inductive ReachableLoop : List Msg → Prop where
  | init (cwd : String) (skills : Option String) :
      ReachableLoop [Msg.system (build_system_prompt cwd skills)]
  | addUser (c : String) {h : List Msg} :
      ReachableLoop h → ReachableLoop (add_user_msg h c)
  | doReset (cwd : String) (skills : Option String) {h : List Msg} :
      ReachableLoop h → ReachableLoop (reset cwd skills h)
  | doLoad {h h' : List Msg} :
      ReachableLoop h → ReachableLoop h' → ReachableLoop (load_history h h')
  | turn (u : String) (inputs : List TurnInput) {h : List Msg} :
      ReachableLoop h → ReachableLoop (step u inputs h).history

/-- The history produced by appending a tool output with a fresh id to the
initial history — reachable by the mutations the claim lists. -/
def histA : List Msg :=
  add_tool_output [Msg.system (build_system_prompt "/w" none)] "c9" "boom"

/-- The history produced by one step turn in which the model emits two
tool-calls sharing the id `c1`, the first of which is an `ask_user`
interrupt: the turn ends after one tool response. -/
def histB : List Msg :=
  (step "u"
    [⟨none, [],
      some ⟨none, some "x",
        some [⟨"c1", "ask_followup_question", ""⟩, ⟨"c1", "edit_file", ""⟩]⟩,
      [⟨"Q?", true⟩]⟩]
    [Msg.system (build_system_prompt "/w" none)]).history

/-! ## `AgentRuntime._robust_json_parse` (`ag.py`) and a model of
`json.loads`

`json.loads` (CPython, default/strict mode) is modelled as an executable
recursive-descent parser over `List Char`: skip JSON whitespace
(space/tab/newline/carriage-return), parse one value, skip trailing JSON
whitespace, require end of input.  Numbers (and the `NaN`/`Infinity`/
`-Infinity` constants CPython accepts) are kept as their lexemes — no
float semantics is needed by any claim.  String contents are kept as their
raw, validated lexemes (escape sequences are checked but not decoded, and
duplicate object keys are kept in order rather than last-wins; no claim
compares differently-escaped spellings).  `str.strip()` is modelled on the
ASCII whitespace set; `str.splitlines` on `\n`, `\r`, `\r\n`. -/

inductive Json where
  | null
  | boolean (b : Bool)
  | num (lexeme : String)
  | str (lexeme : String)
  | arr (items : List Json)
  | obj (members : List (String × Json))

def isJsonWs (c : Char) : Bool :=
  c = ' ' || c = '\t' || c = '\n' || c = '\r'

/-- The whitespace `str.strip()` removes (ASCII part). -/
def isPyWs (c : Char) : Bool :=
  c = ' ' || c = '\t' || c = '\n' || c = '\r' || c = '\x0b' || c = '\x0c'

def skipWs (l : List Char) : List Char := l.dropWhile isJsonWs

def isHexDigit (c : Char) : Bool :=
  c.isDigit || ('a' ≤ c && c ≤ 'f') || ('A' ≤ c && c ≤ 'F')

/-- The body of a JSON string after the opening quote: the raw lexeme up
to (not including) the closing quote, with escapes validated
(`\" \\ \/ \b \f \n \r \t \uXXXX`; raw control characters are rejected, as
in strict mode). -/
def parseStringBody : List Char → Option (List Char × List Char)
  | [] => none
  | c :: rest =>
    if c = '"' then some ([], rest)
    else if c = '\\' then
      match rest with
      | [] => none
      | e :: rest1 =>
        if e = '"' || e = '\\' || e = '/' || e = 'b' || e = 'f' || e = 'n'
            || e = 'r' || e = 't' then
          (parseStringBody rest1).map (fun p => ('\\' :: e :: p.1, p.2))
        else if e = 'u' then
          match rest1 with
          | a :: b :: c2 :: d :: rest2 =>
            if isHexDigit a && isHexDigit b && isHexDigit c2 && isHexDigit d
            then
              (parseStringBody rest2).map
                (fun p => ('\\' :: 'u' :: a :: b :: c2 :: d :: p.1, p.2))
            else none
          | _ => none
        else none
    else if c.toNat < 0x20 then none
    else (parseStringBody rest).map (fun p => (c :: p.1, p.2))

def takeDigits (l : List Char) : List Char × List Char :=
  (l.takeWhile Char.isDigit, l.dropWhile Char.isDigit)

/-- Optional fraction part `.[0-9]+`; like the regex, an ill-formed tail
simply does not extend the lexeme. -/
def parseFracPart (acc : List Char) (l : List Char) : List Char × List Char :=
  match l with
  | c :: r =>
    if c = '.' then
      match r with
      | d :: r2 =>
        if d.isDigit then
          let p := takeDigits r2
          (acc ++ '.' :: d :: p.1, p.2)
        else (acc, l)
      | [] => (acc, l)
    else (acc, l)
  | [] => (acc, l)

/-- Optional exponent part `[eE][+-]?[0-9]+`. -/
def parseExpPart (acc : List Char) (l : List Char) : List Char × List Char :=
  match l with
  | c :: r =>
    if c = 'e' || c = 'E' then
      match r with
      | s :: r2 =>
        if s = '+' || s = '-' then
          (match r2 with
           | d :: r3 =>
             if d.isDigit then
               let p := takeDigits r3
               (acc ++ c :: s :: d :: p.1, p.2)
             else (acc, l)
           | [] => (acc, l))
        else if s.isDigit then
          let p := takeDigits r2
          (acc ++ c :: s :: p.1, p.2)
        else (acc, l)
      | [] => (acc, l)
    else (acc, l)
  | [] => (acc, l)

/-- The number lexeme `-?(0|[1-9][0-9]*)(\.[0-9]+)?([eE][+-]?[0-9]+)?`. -/
def parseNumber (l : List Char) : Option (List Char × List Char) :=
  let neg : List Char × List Char :=
    match l with
    | c :: r => if c = '-' then (['-'], r) else ([], l)
    | [] => ([], l)
  match neg.2 with
  | c :: r =>
    if c = '0' then
      let fr := parseFracPart (neg.1 ++ ['0']) r
      some (parseExpPart fr.1 fr.2)
    else if c.isDigit then
      let p := takeDigits r
      let fr := parseFracPart (neg.1 ++ c :: p.1) p.2
      some (parseExpPart fr.1 fr.2)
    else none
  | [] => none

mutual

def parseValue : Nat → List Char → Option (Json × List Char)
  | 0, _ => none
  | _ + 1, [] => none
  | f + 1, c :: r =>
    if c = '"' then
      (parseStringBody r).map (fun p => (Json.str (String.mk p.1), p.2))
    else if c = '{' then
      (match skipWs r with
       | [] => none
       | c2 :: r2 =>
         if c2 = '}' then some (Json.obj [], r2)
         else parseMembers f [] (c2 :: r2))
    else if c = '[' then
      (match skipWs r with
       | [] => none
       | c2 :: r2 =>
         if c2 = ']' then some (Json.arr [], r2)
         else (parseValue f (c2 :: r2)).bind (fun vr =>
           parseItems f [vr.1] vr.2))
    else if c = 't' then
      (match r with
       | a :: b :: c3 :: r2 =>
         if a = 'r' && b = 'u' && c3 = 'e' then some (Json.boolean true, r2)
         else none
       | _ => none)
    else if c = 'f' then
      (match r with
       | a :: b :: c3 :: d :: r2 =>
         if a = 'a' && b = 'l' && c3 = 's' && d = 'e' then
           some (Json.boolean false, r2)
         else none
       | _ => none)
    else if c = 'n' then
      (match r with
       | a :: b :: c3 :: r2 =>
         if a = 'u' && b = 'l' && c3 = 'l' then some (Json.null, r2)
         else none
       | _ => none)
    else if c = 'N' then
      (match r with
       | a :: b :: r2 =>
         if a = 'a' && b = 'N' then some (Json.num "NaN", r2)
         else none
       | _ => none)
    else if c = 'I' then
      (match r with
       | a :: b :: c3 :: d :: e :: g :: i :: r2 =>
         if a = 'n' && b = 'f' && c3 = 'i' && d = 'n' && e = 'i' && g = 't'
             && i = 'y' then
           some (Json.num "Infinity", r2)
         else none
       | _ => none)
    else if c = '-' || c.isDigit then
      (match parseNumber (c :: r) with
       | some p => some (Json.num (String.mk p.1), p.2)
       | none =>
         if c = '-' then
           (match r with
            | a :: b :: c3 :: d :: e :: g :: i :: j :: r2 =>
              if a = 'I' && b = 'n' && c3 = 'f' && d = 'i' && e = 'n'
                  && g = 'i' && i = 't' && j = 'y' then
                some (Json.num "-Infinity", r2)
              else none
            | _ => none)
         else none)
    else none

def parseItems : Nat → List Json → List Char → Option (Json × List Char)
  | 0, _, _ => none
  | f + 1, acc, l =>
    match skipWs l with
    | [] => none
    | c :: r =>
      if c = ',' then
        (parseValue f (skipWs r)).bind (fun vr =>
          parseItems f (acc ++ [vr.1]) vr.2)
      else if c = ']' then some (Json.arr acc, r)
      else none

def parseMembers : Nat → List (String × Json) → List Char →
    Option (Json × List Char)
  | 0, _, _ => none
  | _ + 1, _, [] => none
  | f + 1, acc, c :: r =>
    if c = '"' then
      (parseStringBody r).bind (fun kr =>
        match skipWs kr.2 with
        | [] => none
        | c2 :: r2 =>
          if c2 = ':' then
            (parseValue f (skipWs r2)).bind (fun vr =>
              match skipWs vr.2 with
              | [] => none
              | c3 :: r3 =>
                if c3 = ',' then
                  parseMembers f (acc ++ [(String.mk kr.1, vr.1)]) (skipWs r3)
                else if c3 = '}' then
                  some (Json.obj (acc ++ [(String.mk kr.1, vr.1)]), r3)
                else none)
          else none)
    else none

end

/-- `json.loads`: skip leading whitespace, parse one value, skip trailing
whitespace, require end of input.  (The fuel `length + 1` strictly
dominates the recursion depth: every nested parser call consumes at least
one character first.) -/
def loads (l : List Char) : Option Json :=
  match parseValue (l.length + 1) (skipWs l) with
  | some (v, rest) => if skipWs rest = [] then some v else none
  | none => none

def json_parse (s : String) : Option Json := loads s.data

/-- `str.strip()` on a character list (ASCII whitespace set). -/
def pyStripL (l : List Char) : List Char :=
  ((l.dropWhile isPyWs).reverse.dropWhile isPyWs).reverse

/-- The line boundaries `str.splitlines` recognises (`\r\n` is handled as
one boundary by `slAux`). -/
def isLineBreak (c : Char) : Bool :=
  c = '\n' || c = '\r' || c = '\x0b' || c = '\x0c' || c = '\x1c'
    || c = '\x1d' || c = '\x1e' || c = '\x85' || c = ' ' || c = ' '

/-- `str.splitlines()` (no keepends): a trailing break adds no empty last
line. -/
def slAux : List Char → List Char → List (List Char)
  | acc, [] => if acc = [] then [] else [acc.reverse]
  | acc, '\r' :: '\n' :: r => acc.reverse :: slAux [] r
  | acc, c :: r =>
    if isLineBreak c then acc.reverse :: slAux [] r else slAux (c :: acc) r

def splitlinesPy (l : List Char) : List (List Char) := slAux [] l

/-- `"\n".join(lines)`. -/
def joinNl : List (List Char) → List Char
  | [] => []
  | [x] => x
  | x :: xs => x ++ '\n' :: joinNl xs

/-- `startswith("```" )`. -/
def startsTicks (l : List Char) : Bool :=
  match l with
  | a :: b :: c :: _ => a = '`' && b = '`' && c = '`'
  | _ => false

/-- The Markdown-fence cleanup of `_robust_json_parse` (source order: the
leading fence line is removed whenever the string starts with a fence, the
trailing line is removed whenever it starts with a fence, and the result
is stripped again). -/
def fenceClean (l : List Char) : List Char :=
  if startsTicks l then
    let lines0 := splitlinesPy l
    let lines1 :=
      match lines0 with
      | first :: rest => if startsTicks first then rest else lines0
      | [] => lines0
    let lines2 :=
      if startsTicks (lines1.getLastD []) then lines1.dropLast else lines1
    pyStripL (joinNl lines2)
  else l

/-- The fence cleanup as the specification words it: the leading fence
line and the trailing fence line are stripped only when BOTH are
present. -/
def fenceClean_claimed (l : List Char) : List Char :=
  if startsTicks l then
    match splitlinesPy l with
    | first :: rest =>
      if startsTicks first && !rest.isEmpty && startsTicks (rest.getLastD [])
      then pyStripL (joinNl rest.dropLast)
      else l
    | [] => l
  else l

/-- The suffix-repair attempts, in source order. -/
def attempts (l : List Char) : List (List Char) :=
  [l ++ ['"'], l ++ ['"', '}'], l ++ ['}'], l ++ ['"', ']'], l ++ [']']]

/-- First successful `json.loads` over a list of candidate strings. -/
def firstSome : List (List Char) → Option Json
  | [] => none
  | a :: rest =>
    match loads a with
    | some v => some v
    | none => firstSome rest

/-- `AgentRuntime._robust_json_parse` (`ag.py`): strip, empty guard, fence
cleanup, direct parse, the five suffix attempts, then the re-raised
original error (`none`). -/
def robust_json_parse (s : String) : Option Json :=
  let clean0 := pyStripL s.data
  if clean0 = [] then some (Json.obj [])
  else
    let clean := fenceClean clean0
    match loads clean with
    | some v => some v
    | none =>
      match firstSome (attempts clean) with
      | some v => some v
      | none => loads clean

/-- The parser exactly as claim C4 words it, for comparison: identical
except that the fence cleanup requires both fence lines. -/
def robust_per_claim (s : String) : Option Json :=
  let clean0 := pyStripL s.data
  if clean0 = [] then some (Json.obj [])
  else
    let clean := fenceClean_claimed clean0
    match loads clean with
    | some v => some v
    | none =>
      match firstSome (attempts clean) with
      | some v => some v
      | none => loads clean

/-! ### Characterisation of the consumed lexeme

`parser_master` below decomposes every successful parse into the consumed
lexeme and the untouched rest, and shows the lexeme re-parses in front of
any continuation that cannot extend it.  This is what lets the stripped /
fence-cleaned string of `_robust_json_parse` re-parse to the same value. -/

def isStarter (c : Char) : Bool :=
  c = '"' || c = '{' || c = '[' || c = 't' || c = 'f' || c = 'n' || c = 'N'
    || c = 'I' || c = '-' || c.isDigit

/-- Continuations that can follow a complete value inside a composite
(whitespace, comma or a closing bracket) or end the input. -/
def safeTail : List Char → Bool
  | [] => true
  | c :: _ => isJsonWs c || c = ',' || c = ']' || c = '}'

/-- Continuations that cannot extend a complete number lexeme. -/
def numContSafe : List Char → Bool
  | [] => true
  | c :: _ => !(c.isDigit || c = '.' || c = 'e' || c = 'E')

/-- Continuations that cannot extend a fraction part. -/
def fracSafe : List Char → Bool
  | [] => true
  | c :: _ => !(c.isDigit || c = '.')

/-- Continuations that cannot extend an exponent part. -/
def expSafe : List Char → Bool
  | [] => true
  | c :: _ => !(c.isDigit || c = 'e' || c = 'E')

def ValidV (pre : List Char) (v : Json) : Prop :=
  ∀ t f', safeTail t = true → pre.length < f' →
    parseValue f' (pre ++ t) = some (v, t)

def ValidI (pre : List Char) (acc : List Json) (v : Json) : Prop :=
  ∀ t f', pre.length < f' → parseItems f' acc (pre ++ t) = some (v, t)

def ValidM (pre : List Char) (acc : List (String × Json)) (v : Json) :
    Prop :=
  ∀ t f', pre.length < f' → parseMembers f' acc (pre ++ t) = some (v, t)

/-! ### The master decomposition -/

def MasterV (f : Nat) : Prop :=
  ∀ l v r, parseValue f l = some (v, r) →
    ∃ pre, l = pre ++ r ∧ pre ≠ [] ∧ isStarter (pre.headD ' ') = true ∧
      isPyWs (pre.getLastD ' ') = false ∧ ValidV pre v

def MasterI (f : Nat) : Prop :=
  ∀ acc l v r, parseItems f acc l = some (v, r) →
    ∃ pre, l = pre ++ r ∧ pre ≠ [] ∧ safeTail pre = true ∧
      pre.getLastD ' ' = ']' ∧ ValidI pre acc v

def MasterM (f : Nat) : Prop :=
  ∀ acc l v r, parseMembers f acc l = some (v, r) →
    ∃ pre, l = pre ++ r ∧ pre ≠ [] ∧ pre.headD ' ' = '"' ∧
      pre.getLastD ' ' = '}' ∧ ValidM pre acc v

/-! ### Lemmas about rendering -/

theorem foldl_slash_shift (b : List String) (x : String) :
    b.foldl (fun acc c => acc ++ "/" ++ c) x
      = x ++ b.foldl (fun acc c => acc ++ "/" ++ c) "" := by
  induction b generalizing x with
  | nil => simp
  | cons c b ih =>
    simp only [List.foldl_cons]
    rw [ih (x ++ "/" ++ c), ih ("" ++ "/" ++ c)]
    simp [String.append_assoc]

theorem renderAbs_append (a b : List String) (ha : a ≠ []) :
    renderAbs (a ++ b)
      = renderAbs a ++ b.foldl (fun acc c => acc ++ "/" ++ c) "" := by
  unfold renderAbs
  have hab : a ++ b ≠ [] := by
    intro h; exact ha (List.append_eq_nil.mp h).1
  rw [if_neg hab, if_neg ha, List.foldl_append, foldl_slash_shift]

theorem foldl_slash_cons (c : String) (b : List String) :
    (c :: b).foldl (fun acc c => acc ++ "/" ++ c) ""
      = "/" ++ (c ++ b.foldl (fun acc c => acc ++ "/" ++ c) "") := by
  simp only [List.foldl_cons]
  rw [foldl_slash_shift]
  simp [String.append_assoc]

/-- C3: for every path `p` and root `r`, if the path guard accepts `p`
against `r` (returns a path instead of raising), the returned canonical
path has the canonical `r` as a prefix at a path-separator boundary (it is
the canonical root itself, or the canonical root followed by `/` and a
remainder — with the root `/` itself as the degenerate boundary case); and
any input whose expanded, resolved form falls outside the canonical root is
rejected with a `PathEscape` error. -/
theorem claim_C3_path_guard (env : PathEnv) (p root : String) :
    (∀ out, validate_path env p root = .ok out →
      (∃ rest, out = renderAbs (resolveParts env root ++ rest)) ∧
      (out = renderAbs (resolveParts env root) ∨
        (∃ r, out = renderAbs (resolveParts env root) ++ "/" ++ r) ∨
        (resolveParts env root = [] ∧ ∃ r, out = "/" ++ r))) ∧
    ((resolveParts env root).isPrefixOf (guardTarget env p root) = false →
      validate_path env p root = .error .PathEscape) := by
  constructor
  · intro out hok
    unfold validate_path at hok
    by_cases hpre :
        (resolveParts env root).isPrefixOf (guardTarget env p root) = true
    · rw [if_pos hpre] at hok
      have hout : out = renderAbs (guardTarget env p root) := by
        injection hok with h; exact h.symm
      obtain ⟨rest, hrest⟩ := List.isPrefixOf_iff_prefix.mp hpre
      refine ⟨⟨rest, by rw [hout, hrest]⟩, ?_⟩
      rw [hout, ← hrest]
      cases hroot : resolveParts env root with
      | nil =>
        cases rest with
        | nil => left; rfl
        | cons c b =>
          right; right
          refine ⟨rfl, c ++ b.foldl (fun acc c => acc ++ "/" ++ c) "", ?_⟩
          show renderAbs ([] ++ c :: b) = _
          rw [List.nil_append]
          unfold renderAbs
          rw [if_neg (by simp), foldl_slash_cons]
      | cons a0 as =>
        cases rest with
        | nil => left; rw [List.append_nil]
        | cons c b =>
          right; left
          refine ⟨c ++ b.foldl (fun acc c => acc ++ "/" ++ c) "", ?_⟩
          rw [renderAbs_append (a0 :: as) (c :: b) (by simp), foldl_slash_cons]
          simp [String.append_assoc]
    · rw [if_neg hpre] at hok
      exact absurd hok (by simp)
  · intro hno
    unfold validate_path
    rw [if_neg (by simp [hno])]

/-- Witness for C3 at concrete inputs: `src/x.py` is accepted against root
`/w` and confined under it; `../../../etc/passwd` resolves outside `/w` and
is rejected with `PathEscape`. -/
theorem claim_C3_path_guard_witness :
    ((∃ rest, "/w/src/x.py" = renderAbs (resolveParts envW "/w" ++ rest)) ∧
      ("/w/src/x.py" = renderAbs (resolveParts envW "/w") ∨
        (∃ r, "/w/src/x.py" = renderAbs (resolveParts envW "/w") ++ "/" ++ r) ∨
        (resolveParts envW "/w" = [] ∧ ∃ r, "/w/src/x.py" = "/" ++ r))) ∧
    validate_path envW "../../../etc/passwd" "/w" = .error .PathEscape :=
  ⟨(claim_C3_path_guard envW "src/x.py" "/w").1 "/w/src/x.py" (by rfl),
   (claim_C3_path_guard envW "../../../etc/passwd" "/w").2 (by rfl)⟩

set_option maxRecDepth 20000 in
/-- Counterexample to C8: a context whose system prompt was built with
workspace `/old`, reset after the working directory changed to `/new`.
`reset` keeps the old prompt verbatim; it does not rebuild from `/new`,
contradicting the claim that `history[0]` reflects the changed working
directory after reset. -/
theorem claim_C8_reset_counterexample :
    reset "/new" none [Msg.system (build_system_prompt "/old" none), Msg.user "hi"]
        = [Msg.system (build_system_prompt "/old" none)] ∧
    reset "/new" none [Msg.system (build_system_prompt "/old" none), Msg.user "hi"]
        ≠ [Msg.system (build_system_prompt "/new" none)] := by
  constructor
  · rfl
  · decide

/-- C8 (amended): `reset` preserves the existing `history[0]` unchanged —
it does not rebuild the system prompt from the current workspace root — and
drops all other messages, leaving a history of exactly one message; only
when the history is empty does it build a fresh system prompt from the
current working directory. -/
theorem claim_C8_reset_amended (cwd : String) (skillsSummary : Option String)
    (history : List Msg) :
    (∀ m0 rest, history = m0 :: rest →
      reset cwd skillsSummary history = [m0]) ∧
    (history = [] →
      reset cwd skillsSummary history
        = [Msg.system (build_system_prompt cwd skillsSummary)]) := by
  constructor
  · intro m0 rest h; subst h; rfl
  · intro h; subst h; rfl

/-- Witness for the amended C8 at a concrete history. -/
theorem claim_C8_reset_amended_witness :
    ([Msg.system "P", Msg.user "hi"] = Msg.system "P" :: [Msg.user "hi"]) ∧
    reset "/new" none [Msg.system "P", Msg.user "hi"] = [Msg.system "P"] :=
  ⟨rfl, (claim_C8_reset_amended "/new" none [Msg.system "P", Msg.user "hi"]).1
    (Msg.system "P") [Msg.user "hi"] rfl⟩

/-- Counterexample to C9: registering the same tool twice changes the
catalogue returned by `get_definitions` — the schema list gains a duplicate
entry, so double registration is observably different from single
registration. -/
theorem claim_C9_register_counterexample :
    let t : Tool Nat Nat := ⟨"read_file", 7, 0⟩
    let once := (ToolExecutor.register ⟨[], []⟩ t)
    ToolExecutor.get_definitions (ToolExecutor.register once t)
      ≠ ToolExecutor.get_definitions once := by
  decide

theorem dictSet_self {α : Type} (m : List (String × α)) (k : String) (v : α) :
    dictSet (dictSet m k v) k v = dictSet m k v := by
  unfold dictSet
  by_cases h : m.any (fun kv => kv.1 = k) = true
  · rw [if_pos h]
    have hmem : (m.map (fun kv => if kv.1 = k then (k, v) else kv)).any
        (fun kv => kv.1 = k) = true := by
      rw [List.any_eq_true] at h ⊢
      obtain ⟨kv, hkv, hk⟩ := h
      exact ⟨(k, v), List.mem_map.mpr
        ⟨kv, hkv, by simp [of_decide_eq_true hk]⟩, by simp⟩
    rw [if_pos hmem, List.map_map]
    apply List.map_congr_left
    intro kv _
    by_cases hk : kv.1 = k <;> simp [Function.comp, hk]
  · rw [if_neg h]
    have hmem : (m ++ [(k, v)]).any (fun kv => kv.1 = k) = true := by simp
    rw [if_pos hmem, List.map_append]
    have hall : ∀ kv ∈ m, kv.1 ≠ k := by
      intro kv hkv hk
      exact h (List.any_eq_true.mpr ⟨kv, hkv, by simp [hk]⟩)
    have h1 : m.map (fun kv => if kv.1 = k then (k, v) else kv) = m := by
      conv_rhs => rw [← List.map_id m]
      exact List.map_congr_left (fun kv hkv => by simp [hall kv hkv])
    rw [h1]
    simp

/-- C9 (amended): registering the same tool a second time leaves the
execution map — hence the result of every subsequent dispatch — unchanged,
but it is *not* a no-op in observable behaviour: the catalogue returned by
`get_definitions` gains a duplicate copy of the tool's schema. -/
theorem claim_C9_register_amended {σ H : Type} (ex : ToolExecutor σ H)
    (t : Tool σ H) :
    (ToolExecutor.register (ToolExecutor.register ex t) t).execMap
        = (ToolExecutor.register ex t).execMap ∧
    (∀ name, ToolExecutor.lookupTool (ToolExecutor.register (ToolExecutor.register ex t) t) name
        = ToolExecutor.lookupTool (ToolExecutor.register ex t) name) ∧
    ToolExecutor.get_definitions (ToolExecutor.register (ToolExecutor.register ex t) t)
        = ToolExecutor.get_definitions (ToolExecutor.register ex t) ++ [t.schema] := by
  refine ⟨dictSet_self ex.execMap t.name t.payload, ?_, rfl⟩
  intro name
  unfold ToolExecutor.lookupTool
  rw [show (ToolExecutor.register (ToolExecutor.register ex t) t).execMap
      = (ToolExecutor.register ex t).execMap from
    dictSet_self ex.execMap t.name t.payload]

/-- C2 fails on the code (and the code contradicts its own test
`tests/test_new_features.py`): the ID `x/../../secret` does not match the
required regex, yet no endpoint rejects it — `load_session` probes the
filesystem at `sessions/1_session_x/../../secret.json`, which normalises to
`secret.json`, *outside* the `sessions/` directory, and never returns a
400. -/
theorem claim_C2_session_id_unchecked :
    sessionIdOk "x/../../secret" = false ∧
    (∀ fe, load_session 1 "x/../../secret" fe ≠ .badRequest) ∧
    load_session 1 "x/../../secret" (fun _ => true)
      = .ok "sessions/1_session_x/../../secret.json" ∧
    normalizeParts (splitParts (get_session_path 1 "x/../../secret"))
      = ["secret.json"] := by
  refine ⟨by decide, ?_, by rfl, by rfl⟩
  intro fe
  unfold load_session
  by_cases h : fe (get_session_path 1 "x/../../secret") = true <;>
    simp [h]

/-! ### The accumulators compute the canonical content -/

theorem foldl_str_shift {α : Type} (g : α → String) (cs : List α) (x : String) :
    cs.foldl (fun acc c => acc ++ g c) x
      = x ++ cs.foldl (fun acc c => acc ++ g c) "" := by
  induction cs generalizing x with
  | nil => simp
  | cons c cs ih =>
    simp only [List.foldl_cons]
    rw [ih (x ++ g c), ih ("" ++ g c)]
    simp [String.append_assoc]

theorem runChunks_decomp (cs : List Chunk) (st : StreamState) :
    cs.foldl stepChunk st
      = ⟨st.reasoning ++ totalReasoning cs, st.content ++ totalContent cs,
         (allFrags cs).foldl bufAdd st.buf⟩ := by
  induction cs generalizing st with
  | nil => simp [totalReasoning, totalContent, allFrags]
  | cons c cs ih =>
    rw [List.foldl_cons, ih]
    have hR : totalReasoning (c :: cs) = c.reasoning ++ totalReasoning cs := by
      unfold totalReasoning
      rw [List.foldl_cons, foldl_str_shift Chunk.reasoning]
      simp
    have hC : totalContent (c :: cs) = c.content ++ totalContent cs := by
      unfold totalContent
      rw [List.foldl_cons, foldl_str_shift Chunk.content]
      simp
    have hF : allFrags (c :: cs) = c.toolCalls ++ allFrags cs := by
      simp [allFrags]
    rw [hR, hC, hF, List.foldl_append]
    simp [stepChunk, String.append_assoc]

theorem runChunks_eq (cs : List Chunk) :
    runChunks cs
      = ⟨totalReasoning cs, totalContent cs, bufOfFrags (allFrags cs)⟩ := by
  unfold runChunks bufOfFrags
  rw [runChunks_decomp]
  simp

theorem perIndexF_append (fs : List ToolFrag) (f : ToolFrag) (i : Nat) :
    perIndexF (fs ++ [f]) i
      = if f.index = i then
          ⟨(perIndexF fs i).id ++ f.id, (perIndexF fs i).name ++ f.name,
           (perIndexF fs i).args ++ f.args⟩
        else perIndexF fs i := by
  unfold perIndexF
  rw [List.foldl_append]
  rfl

theorem perIndexF_absent (fs : List ToolFrag) (i : Nat)
    (h : fs.any (fun f => f.index = i) = false) :
    perIndexF fs i = ⟨"", "", ""⟩ := by
  induction fs with
  | nil => rfl
  | cons f fs ih =>
    simp only [List.any_cons, Bool.or_eq_false_iff] at h
    have h1 : ¬ (f.index = i) := by
      intro hk; rw [hk] at h; simp at h
    unfold perIndexF
    rw [List.foldl_cons, if_neg h1]
    exact ih h.2

theorem bool_eq_of_iff {a b : Bool} (h : a = true ↔ b = true) : a = b := by
  cases a <;> cases b <;> simp_all

theorem bufAdd_keys (buf : List (Nat × BufEntry)) (f : ToolFrag) :
    (bufAdd buf f).map Prod.fst = (bufTouch buf f.index).map Prod.fst := by
  unfold bufAdd
  rw [List.map_map]
  apply List.map_congr_left
  intro kv _
  by_cases hk : kv.1 = f.index <;> simp [Function.comp, hk]

theorem bufAdd_inv {fs : List ToolFrag} {buf : List (Nat × BufEntry)}
    (f : ToolFrag) (h : BufInv fs buf) : BufInv (fs ++ [f]) (bufAdd buf f) := by
  obtain ⟨hnd, hany, hval⟩ := h
  by_cases hpres : buf.any (fun kv => kv.1 = f.index) = true
  · have htouch : bufTouch buf f.index = buf := by
      unfold bufTouch; rw [if_pos hpres]
    refine ⟨?_, ?_, ?_⟩
    · rw [bufAdd_keys, htouch]; exact hnd
    · intro j
      have : (bufAdd buf f).any (fun kv => kv.1 = j)
          = buf.any (fun kv => kv.1 = j) := by
        apply bool_eq_of_iff
        rw [List.any_eq_true, List.any_eq_true]
        constructor
        · rintro ⟨kv', hkv', hj⟩
          unfold bufAdd at hkv'
          rw [htouch] at hkv'
          obtain ⟨kv, hkv, hr⟩ := List.mem_map.mp hkv'
          by_cases hk : kv.1 = f.index
          · refine ⟨kv, hkv, ?_⟩
            rw [if_pos hk] at hr
            subst hr
            exact hj
          · rw [if_neg hk] at hr
            subst hr
            exact ⟨kv, hkv, hj⟩
        · rintro ⟨kv, hkv, hj⟩
          by_cases hk : kv.1 = f.index
          · refine ⟨(kv.1, ⟨kv.2.id ++ f.id, kv.2.name ++ f.name,
              kv.2.args ++ f.args⟩), ?_, hj⟩
            unfold bufAdd
            rw [htouch]
            exact List.mem_map.mpr ⟨kv, hkv, by rw [if_pos hk]⟩
          · refine ⟨kv, ?_, hj⟩
            unfold bufAdd
            rw [htouch]
            exact List.mem_map.mpr ⟨kv, hkv, by rw [if_neg hk]⟩
      rw [this, List.any_append, hany]
      have : [f].any (fun g => g.index = j)
          = decide (f.index = j) := by simp
      rw [this]
      by_cases hj : f.index = j
      · have : fs.any (fun g => g.index = j) = true := by
          rw [← hany, ← hj]
          exact hpres
        simp [this, hj]
      · simp [hj]
    · intro kv' hkv'
      unfold bufAdd at hkv'
      rw [htouch] at hkv'
      obtain ⟨kv, hkv, hr⟩ := List.mem_map.mp hkv'
      by_cases hk : kv.1 = f.index
      · rw [if_pos hk] at hr
        subst hr
        have hv := hval kv hkv
        simp only
        rw [perIndexF_append, hk, if_pos rfl, hv, hk]
      · rw [if_neg hk] at hr
        subst hr
        have hv := hval kv hkv
        rw [perIndexF_append, if_neg (fun hc => hk hc.symm), hv]
  · have hpres' : buf.any (fun kv => kv.1 = f.index) = false :=
      Bool.eq_false_iff.mpr hpres
    have htouch : bufTouch buf f.index = buf ++ [(f.index, ⟨"", "", ""⟩)] := by
      unfold bufTouch; rw [if_neg hpres]
    have hnotmem : f.index ∉ buf.map Prod.fst := by
      intro hmem
      obtain ⟨kv, hkv, hk⟩ := List.mem_map.mp hmem
      exact hpres (List.any_eq_true.mpr ⟨kv, hkv, by simp [hk]⟩)
    refine ⟨?_, ?_, ?_⟩
    · rw [bufAdd_keys, htouch, List.map_append]
      simp only [List.map_cons, List.map_nil]
      rw [List.nodup_append]
      exact ⟨hnd, List.nodup_singleton _, by
        intro a ha hb
        simp at hb
        rw [hb] at ha
        exact hnotmem ha⟩
    · intro j
      have : (bufAdd buf f).any (fun kv => kv.1 = j)
          = (buf ++ [(f.index, (⟨"", "", ""⟩ : BufEntry))]).any
              (fun kv => kv.1 = j) := by
        apply bool_eq_of_iff
        rw [List.any_eq_true, List.any_eq_true]
        constructor
        · rintro ⟨kv', hkv', hj⟩
          unfold bufAdd at hkv'
          rw [htouch] at hkv'
          obtain ⟨kv, hkv, hr⟩ := List.mem_map.mp hkv'
          by_cases hk : kv.1 = f.index
          · rw [if_pos hk] at hr; subst hr; exact ⟨kv, hkv, hj⟩
          · rw [if_neg hk] at hr; subst hr; exact ⟨kv, hkv, hj⟩
        · rintro ⟨kv, hkv, hj⟩
          by_cases hk : kv.1 = f.index
          · refine ⟨(kv.1, ⟨kv.2.id ++ f.id, kv.2.name ++ f.name,
              kv.2.args ++ f.args⟩), ?_, hj⟩
            unfold bufAdd
            rw [htouch]
            exact List.mem_map.mpr ⟨kv, hkv, by rw [if_pos hk]⟩
          · refine ⟨kv, ?_, hj⟩
            unfold bufAdd
            rw [htouch]
            exact List.mem_map.mpr ⟨kv, hkv, by rw [if_neg hk]⟩
      rw [this, List.any_append, List.any_append, hany]
      simp
    · intro kv' hkv'
      unfold bufAdd at hkv'
      rw [htouch] at hkv'
      obtain ⟨kv, hkv, hr⟩ := List.mem_map.mp hkv'
      rcases List.mem_append.mp hkv with hkv | hkv
      · by_cases hk : kv.1 = f.index
        · rw [if_pos hk] at hr
          subst hr
          have : buf.any (fun g => g.1 = f.index) = true :=
            List.any_eq_true.mpr ⟨kv, hkv, by simp [hk]⟩
          rw [this] at hpres'
          cases hpres'
        · rw [if_neg hk] at hr
          subst hr
          rw [perIndexF_append, if_neg (fun hc => hk hc.symm)]
          exact hval kv hkv
      · simp only [List.mem_singleton] at hkv
        subst hkv
        rw [if_pos rfl] at hr
        subst hr
        have habs : fs.any (fun g => g.index = f.index) = false := by
          rw [← hany]; exact hpres'
        simp only
        rw [perIndexF_append, if_pos rfl, perIndexF_absent fs f.index habs]

theorem bufOfFrags_inv (fs : List ToolFrag) : BufInv fs (bufOfFrags fs) := by
  induction fs using List.reverseRecOn with
  | nil =>
    refine ⟨List.nodup_nil, fun i => rfl, ?_⟩
    intro kv hkv
    cases hkv
  | append_singleton fs f ih =>
    have : bufOfFrags (fs ++ [f]) = bufAdd (bufOfFrags fs) f := by
      unfold bufOfFrags
      rw [List.foldl_append]
      rfl
    rw [this]
    exact bufAdd_inv f ih

theorem assemble_canonical (cs : List Chunk) :
    assembleToolCalls (bufOfFrags (allFrags cs))
      = (sortedTouched cs).map (canonCall cs) := by
  obtain ⟨hnd, hany, hval⟩ := bufOfFrags_inv (allFrags cs)
  unfold assembleToolCalls sortedTouched
  have hkeys : List.insertionSort (· ≤ ·)
      ((bufOfFrags (allFrags cs)).map (fun kv => kv.1))
      = List.insertionSort (· ≤ ·)
          (((allFrags cs).map ToolFrag.index).dedup) := by
    refine List.eq_of_perm_of_sorted ?_ (List.sorted_insertionSort _ _)
      (List.sorted_insertionSort _ _)
    have hp : ((bufOfFrags (allFrags cs)).map (fun kv => kv.1)).Perm
        (((allFrags cs).map ToolFrag.index).dedup) := by
      apply List.perm_of_nodup_nodup_toFinset_eq hnd (List.nodup_dedup _)
      ext j
      simp only [List.mem_toFinset, List.mem_dedup, List.mem_map]
      constructor
      · rintro ⟨kv, hkv, rfl⟩
        have hb : (bufOfFrags (allFrags cs)).any (fun g => g.1 = kv.1) = true :=
          List.any_eq_true.mpr ⟨kv, hkv, by simp⟩
        rw [hany kv.1] at hb
        obtain ⟨f, hf, hfi⟩ := List.any_eq_true.mp hb
        exact ⟨f, hf, of_decide_eq_true hfi⟩
      · rintro ⟨f, hf, rfl⟩
        have hb : (allFrags cs).any (fun g => g.index = f.index) = true :=
          List.any_eq_true.mpr ⟨f, hf, by simp⟩
        rw [← hany f.index] at hb
        obtain ⟨kv, hkv, hki⟩ := List.any_eq_true.mp hb
        exact ⟨kv, hkv, of_decide_eq_true hki⟩
    exact (List.perm_insertionSort _ _).trans
      (hp.trans (List.perm_insertionSort _ _).symm)
  rw [hkeys]
  apply List.map_congr_left
  intro i hi
  have hi' : i ∈ ((allFrags cs).map ToolFrag.index).dedup :=
    (List.Perm.mem_iff (List.perm_insertionSort _ _)).mp hi
  obtain ⟨f, hf, hfi⟩ := List.mem_map.mp (List.mem_dedup.mp hi')
  have hb : (bufOfFrags (allFrags cs)).any (fun kv => kv.1 = i) = true := by
    rw [hany i]
    exact List.any_eq_true.mpr ⟨f, hf, by simp [hfi]⟩
  obtain ⟨kv, hkv, hki⟩ := List.any_eq_true.mp hb
  have hsome : ((bufOfFrags (allFrags cs)).find?
      (fun kv => kv.1 = i)).isSome = true := by
    rw [List.find?_isSome]
    exact ⟨kv, hkv, hki⟩
  obtain ⟨kv₀, hfind⟩ := Option.isSome_iff_exists.mp hsome
  have hmem := List.mem_of_find?_eq_some hfind
  have hpk := List.find?_some hfind
  have hk₀ : kv₀.1 = i := by simpa using hpk
  have hv₀ := hval kv₀ hmem
  simp only [hfind]
  unfold canonCall perIndexEntry
  rw [hv₀, hk₀]

theorem parse_stream_message_eq (cs : List Chunk) :
    parse_stream_message cs
      = Msg.assistant
          (if totalReasoning cs = "" then none else some (totalReasoning cs))
          (if totalContent cs = "" then none else some (totalContent cs))
          (if sortedTouched cs = [] then none
           else some ((sortedTouched cs).map (canonCall cs))) := by
  unfold parse_stream_message
  rw [runChunks_eq]
  simp only
  rw [assemble_canonical]
  congr 1
  by_cases h : sortedTouched cs = []
  · rw [if_pos h, if_pos (by rw [h]; rfl)]
  · rw [if_neg h, if_neg (by
      intro hmap
      exact h (List.map_eq_nil_iff.mp hmap))]

theorem sortedTouched_eq_nil_iff (cs : List Chunk) :
    sortedTouched cs = [] ↔ allFrags cs = [] := by
  unfold sortedTouched
  constructor
  · intro h
    have hperm := List.perm_insertionSort (· ≤ ·)
      (((allFrags cs).map ToolFrag.index).dedup)
    rw [h] at hperm
    have hd : ((allFrags cs).map ToolFrag.index).dedup = [] :=
      hperm.symm.eq_nil
    exact List.map_eq_nil_iff.mp ((List.dedup_eq_nil _).mp hd)
  · intro h
    rw [h]
    rfl

/-- C5: the assembled assistant message is invariant under any re-splitting
of the chunks that preserves the concatenated reasoning string, the
concatenated content string, and the per-index presence and concatenated
`id`/`name`/`arguments` strings; the final tool-call list is ordered by
ascending fragment index (it equals the per-index merges listed in
ascending index order, not arrival order); and each of the reasoning,
content and tool_calls fields of the assembled message is `None` exactly
when its accumulator is empty. -/
theorem claim_C5_stream_invariance :
    (∀ cs1 cs2 : List Chunk,
      totalReasoning cs1 = totalReasoning cs2 →
      totalContent cs1 = totalContent cs2 →
      (∀ i, fragPresent cs1 i = fragPresent cs2 i) →
      (∀ i, perIndexEntry cs1 i = perIndexEntry cs2 i) →
      parse_stream_message cs1 = parse_stream_message cs2) ∧
    (∀ cs : List Chunk,
      assembleToolCalls (runChunks cs).buf
        = (sortedTouched cs).map (canonCall cs)) ∧
    (∀ cs r c t, parse_stream_message cs = Msg.assistant r c t →
      ((r = none ↔ totalReasoning cs = "") ∧
       (c = none ↔ totalContent cs = "") ∧
       (t = none ↔ allFrags cs = []))) := by
  refine ⟨?_, ?_, ?_⟩
  · intro cs1 cs2 hr hc hpres hper
    have hsort : sortedTouched cs1 = sortedTouched cs2 := by
      unfold sortedTouched
      refine List.eq_of_perm_of_sorted ?_ (List.sorted_insertionSort _ _)
        (List.sorted_insertionSort _ _)
      have hp : (((allFrags cs1).map ToolFrag.index).dedup).Perm
          (((allFrags cs2).map ToolFrag.index).dedup) := by
        apply List.perm_of_nodup_nodup_toFinset_eq (List.nodup_dedup _)
          (List.nodup_dedup _)
        ext j
        simp only [List.mem_toFinset, List.mem_dedup, List.mem_map]
        have h1 : (∃ f ∈ allFrags cs1, f.index = j) ↔ fragPresent cs1 j = true := by
          unfold fragPresent
          rw [List.any_eq_true]
          constructor
          · rintro ⟨f, hf, hj⟩; exact ⟨f, hf, by simp [hj]⟩
          · rintro ⟨f, hf, hj⟩; exact ⟨f, hf, of_decide_eq_true hj⟩
        have h2 : (∃ f ∈ allFrags cs2, f.index = j) ↔ fragPresent cs2 j = true := by
          unfold fragPresent
          rw [List.any_eq_true]
          constructor
          · rintro ⟨f, hf, hj⟩; exact ⟨f, hf, by simp [hj]⟩
          · rintro ⟨f, hf, hj⟩; exact ⟨f, hf, of_decide_eq_true hj⟩
        rw [h1, h2, hpres j]
      exact (List.perm_insertionSort _ _).trans
        (hp.trans (List.perm_insertionSort _ _).symm)
    have hmap : (sortedTouched cs2).map (canonCall cs1)
        = (sortedTouched cs2).map (canonCall cs2) := by
      apply List.map_congr_left
      intro i _
      unfold canonCall
      rw [hper i]
    rw [parse_stream_message_eq cs1, parse_stream_message_eq cs2,
      hr, hc, hsort, hmap]
  · intro cs
    rw [runChunks_eq]
    exact assemble_canonical cs
  · intro cs r c t h
    rw [parse_stream_message_eq cs] at h
    have h3 := (Msg.assistant.injEq _ _ _ _ _ _).mp h.symm
    obtain ⟨hr, hc, ht⟩ := h3
    refine ⟨?_, ?_, ?_⟩
    · rw [hr]
      by_cases hcase : totalReasoning cs = "" <;> simp [hcase]
    · rw [hc]
      by_cases hcase : totalContent cs = "" <;> simp [hcase]
    · rw [ht, ← sortedTouched_eq_nil_iff]
      by_cases hcase : sortedTouched cs = [] <;> simp [hcase]

/-- Witness for C5: the split and unsplit deliveries of the same reasoning
and content assemble to the same assistant message. -/
theorem claim_C5_stream_invariance_witness :
    totalReasoning csSplit = totalReasoning csWhole ∧
    totalContent csSplit = totalContent csWhole ∧
    parse_stream_message csSplit = parse_stream_message csWhole :=
  ⟨by decide, by decide,
    claim_C5_stream_invariance.1 csSplit csWhole (by decide) (by decide)
      (fun i => rfl) (fun i => rfl)⟩

theorem deltas_no_toolCall (ds : List DeltaEv) :
    (ds.map DeltaEv.toEvent).countP Event.isToolCall = 0 := by
  rw [List.countP_eq_zero]
  intro e he
  obtain ⟨d, _, rfl⟩ := List.mem_map.mp he
  unfold DeltaEv.toEvent
  by_cases hd : d.thinking <;> simp [hd, Event.isToolCall]

theorem deltas_no_error (ds : List DeltaEv) :
    (ds.map DeltaEv.toEvent).countP Event.isError = 0 := by
  rw [List.countP_eq_zero]
  intro e he
  obtain ⟨d, _, rfl⟩ := List.mem_map.mp he
  unfold DeltaEv.toEvent
  by_cases hd : d.thinking <;> simp [hd, Event.isError]

/-- Unfolding one ordinary tool-calling iteration of the loop. -/
theorem stepLoop_cons_toolTurn (inp : TurnInput) (rest : List TurnInput)
    (stepCount : Nat) (h : List Msg) (m : AsmMsg) (tc : ToolCall)
    (hresp : inp.resp = some m) (htc : m.toolCalls = some [tc])
    (hname : tc.name ≠ "attempt_completion")
    (hnint : (inp.execs.headD ⟨"", false⟩).interrupt = false)
    (hlt : stepCount < MAX_STEPS) :
    stepLoop (inp :: rest) stepCount h
      = ⟨(stepLoop rest (stepCount + 1)
            (h ++ [Msg.assistant m.reasoning m.content m.toolCalls,
                   Msg.tool tc.id (inp.execs.headD ⟨"", false⟩).output])).history,
          inp.deltas.map DeltaEv.toEvent
            ++ [Event.toolCall tc.id tc.name tc.args,
                Event.toolOutput tc.id (inp.execs.headD ⟨"", false⟩).output]
            ++ (stepLoop rest (stepCount + 1)
                (h ++ [Msg.assistant m.reasoning m.content m.toolCalls,
                       Msg.tool tc.id (inp.execs.headD ⟨"", false⟩).output])).events,
          (h ++ optReminder inp.todoJson)
            :: (stepLoop rest (stepCount + 1)
                (h ++ [Msg.assistant m.reasoning m.content m.toolCalls,
                       Msg.tool tc.id (inp.execs.headD ⟨"", false⟩).output])).requests⟩ := by
  have hT : truthyL m.toolCalls = true := by rw [htc]; rfl
  have hrun : runCalls [tc] inp.execs
      = ([Msg.tool tc.id (inp.execs.headD ⟨"", false⟩).output],
         [Event.toolCall tc.id tc.name tc.args,
          Event.toolOutput tc.id (inp.execs.headD ⟨"", false⟩).output],
         false) := by
    unfold runCalls
    rw [if_neg (by rw [hnint]; exact Bool.false_ne_true), if_neg hname]
    rfl
  conv_lhs => rw [stepLoop]
  rw [if_pos hlt]
  simp only [hresp, htc]
  simp only [savedMsg, htc, truthyL, List.isEmpty_cons, Bool.not_false,
    Bool.not_true, Bool.and_false, Bool.false_and, Bool.and_true,
    Option.getD_some, hrun, add_assistant_msg]
  simp [List.append_assoc]

theorem stepLoop_toolTurn_counts (inputs : List TurnInput) :
    ∀ stepCount h, (∀ inp ∈ inputs, OneToolTurn inp) →
      (stepLoop inputs stepCount h).events.countP Event.isToolCall
          = min inputs.length (MAX_STEPS - stepCount) ∧
      (stepLoop inputs stepCount h).events.countP Event.isError = 0 := by
  induction inputs with
  | nil => intro stepCount h _; simp [stepLoop]
  | cons inp rest ih =>
    intro stepCount h hall
    obtain ⟨m, tc, hresp, htc, hname, hnint⟩ :=
      hall inp (List.mem_cons_self _ _)
    by_cases hlt : stepCount < MAX_STEPS
    · rw [stepLoop_cons_toolTurn inp rest stepCount h m tc hresp htc hname
        hnint hlt]
      have hrec := ih (stepCount + 1)
        (h ++ [Msg.assistant m.reasoning m.content m.toolCalls,
               Msg.tool tc.id (inp.execs.headD ⟨"", false⟩).output])
        (fun i hi => hall i (List.mem_cons_of_mem _ hi))
      simp only [List.countP_append]
      rw [deltas_no_toolCall, deltas_no_error, hrec.1, hrec.2]
      constructor
      · have h1 : List.countP Event.isToolCall
            [Event.toolCall tc.id tc.name tc.args,
             Event.toolOutput tc.id (inp.execs.headD ⟨"", false⟩).output]
            = 1 := by rfl
        rw [h1]
        have hms : MAX_STEPS = 100 := rfl
        simp only [List.length_cons]
        omega
      · rfl
    · unfold stepLoop
      rw [if_neg hlt]
      have h0 : MAX_STEPS - stepCount = 0 := by omega
      simp [h0]

/-- Counterexample to C7 as stated: driving the loop with 101 consecutive
tool-calling model responses executes exactly `MAX_STEPS = 100` tool calls
(the 101st is not executed), but **no** error event is emitted — the
generator simply ends, so exceeding the cap is *not* surfaced to the caller
as an error event. -/
theorem claim_C7_max_steps_counterexample :
    (step "go" (List.replicate 101 tti) [Msg.system "S"]).events.countP
        Event.isToolCall = 100 ∧
    (step "go" (List.replicate 101 tti) [Msg.system "S"]).events.countP
        Event.isError = 0 := by
  have hall : ∀ inp ∈ List.replicate 101 tti, OneToolTurn inp := by
    intro inp hm
    rw [List.eq_of_mem_replicate hm]
    exact ⟨⟨none, some "w", some [⟨"c", "list_files", ""⟩]⟩,
      ⟨"c", "list_files", ""⟩, rfl, rfl, by decide, rfl⟩
  have h := stepLoop_toolTurn_counts (List.replicate 101 tti) 0
    (add_user_msg [Msg.system "S"] "go") hall
  exact ⟨by rw [step, h.1]; rfl, by rw [step, h.2]⟩

/-- C7 (amended): MAX_STEPS (100) is a hard cap on the agent loop —
`min n 100` of `n` consecutive tool-calling iterations execute a tool call,
so 100 are permitted and the 101st attempt does not execute another tool
call; but exceeding the cap is *silent*: the loop simply stops without
emitting an error event (no error event is ever emitted in an all-tool-call
run). -/
theorem claim_C7_max_steps_amended (u : String) (h : List Msg)
    (inputs : List TurnInput) (hall : ∀ inp ∈ inputs, OneToolTurn inp) :
    (step u inputs h).events.countP Event.isToolCall
        = min inputs.length MAX_STEPS ∧
    (step u inputs h).events.countP Event.isError = 0 := by
  have hc := stepLoop_toolTurn_counts inputs 0 (add_user_msg h u) hall
  rw [step]
  exact ⟨by rw [hc.1, Nat.sub_zero], hc.2⟩

/-- Witness for the amended C7 at 3 concrete tool-calling iterations. -/
theorem claim_C7_max_steps_amended_witness :
    (step "go" (List.replicate 3 tti) [Msg.system "S"]).events.countP
        Event.isToolCall = min (List.replicate 3 tti).length MAX_STEPS ∧
    (step "go" (List.replicate 3 tti) [Msg.system "S"]).events.countP
        Event.isError = 0 :=
  claim_C7_max_steps_amended "go" [Msg.system "S"] (List.replicate 3 tti)
    (by
      intro inp hm
      rw [List.eq_of_mem_replicate hm]
      exact ⟨⟨none, some "w", some [⟨"c", "list_files", ""⟩]⟩,
        ⟨"c", "list_files", ""⟩, rfl, rfl, by decide, rfl⟩)

/-! ## C6 — tool-call IDs are never fabricated, but missing IDs do not
fail the step -/

theorem runCalls_no_error (calls : List ToolCall) :
    ∀ execs, (runCalls calls execs).2.1.countP Event.isError = 0 := by
  induction calls with
  | nil => intro execs; rfl
  | cons tc rest ih =>
    intro execs
    unfold runCalls
    by_cases hi : (execs.headD ⟨"", false⟩).interrupt = true
    · rw [if_pos hi]
      rfl
    · rw [if_neg hi]
      by_cases hn : tc.name = "attempt_completion"
      · rw [if_pos hn]
        rfl
      · rw [if_neg hn]
        simp only [List.countP_append]
        rw [ih execs.tail]
        rfl

theorem stepLoop_no_error (inputs : List TurnInput) :
    ∀ stepCount h, (∀ inp ∈ inputs, inp.resp ≠ none) →
      (stepLoop inputs stepCount h).events.countP Event.isError = 0 := by
  induction inputs with
  | nil => intro _ _ _; rfl
  | cons inp rest ih =>
    intro stepCount h hall
    rw [stepLoop]
    by_cases hlt : stepCount < MAX_STEPS
    · rw [if_pos hlt]
      cases hm : inp.resp with
      | none => exact absurd hm (hall inp (List.mem_cons_self _ _))
      | some m =>
        simp only [hm]
        by_cases h1 : (!truthyS m.content && !truthyL m.toolCalls
            && !truthyS m.reasoning) = true
        · rw [if_pos h1]
          simp only [List.countP_append, deltas_no_error]
          rfl
        · rw [if_neg h1]
          by_cases h2 : truthyL m.toolCalls = true
          · rw [if_pos h2]
            by_cases h3 : (runCalls (m.toolCalls.getD []) inp.execs).2.2 = true
            · rw [if_pos h3]
              simp only [List.countP_append, deltas_no_error,
                runCalls_no_error]
            · rw [if_neg h3]
              simp only [List.countP_append, deltas_no_error,
                runCalls_no_error,
                ih (stepCount + 1) _
                  (fun i hi => hall i (List.mem_cons_of_mem _ hi))]
          · rw [if_neg h2]
            simp only [List.countP_append, deltas_no_error]
            rfl
    · rw [if_neg hlt]
      rfl

/-- Counterexample to C6 as stated: for a stream in which the vendor
supplied no id fragment for index 0, the interpreter assembles the call
with the empty id, and the runtime does **not** fail the step — it
dispatches the call (yielding `tool_call`/`tool_output` events with the
empty id and recording the tool message under the empty `call_id`) and
emits no error event. -/
theorem claim_C6_no_id_counterexample :
    (parse_stream_message csNoId).asAssistant.toolCalls
        = some [⟨"", "write_to_file", ""⟩] ∧
    (Event.toolCall "" "write_to_file" ""
        ∈ (step "u" [⟨none, [],
            some (parse_stream_message csNoId).asAssistant,
            [⟨"done", false⟩]⟩] [Msg.system "S"]).events) ∧
    (Event.toolOutput "" "done"
        ∈ (step "u" [⟨none, [],
            some (parse_stream_message csNoId).asAssistant,
            [⟨"done", false⟩]⟩] [Msg.system "S"]).events) ∧
    (step "u" [⟨none, [],
        some (parse_stream_message csNoId).asAssistant,
        [⟨"done", false⟩]⟩] [Msg.system "S"]).events.countP
        Event.isError = 0 ∧
    (Msg.tool "" "done"
        ∈ (step "u" [⟨none, [],
            some (parse_stream_message csNoId).asAssistant,
            [⟨"done", false⟩]⟩] [Msg.system "S"]).history) := by
  decide

/-- C6 (amended): the interpreter never fabricates a tool-call ID — the
assembled id for an index is the concatenation of the vendor's id
fragments, hence empty when the vendor supplied none — but the runtime
does not fail such a step: no error event is ever produced by a turn whose
model responses all arrived (errors arise only from a failed transport);
the call is dispatched with the empty id. -/
theorem claim_C6_no_fabricated_id_amended :
    (∀ cs i, (∀ f ∈ allFrags cs, f.index = i → f.id = "") →
      (perIndexEntry cs i).id = "") ∧
    (∀ u inputs h, (∀ inp ∈ inputs, inp.resp ≠ none) →
      (step u inputs h).events.countP Event.isError = 0) := by
  constructor
  · intro cs i
    unfold perIndexEntry
    generalize allFrags cs = fs
    induction fs using List.reverseRecOn with
    | nil => intro _; rfl
    | append_singleton fs f ih =>
      intro hall
      rw [perIndexF_append]
      by_cases hf : f.index = i
      · rw [if_pos hf]
        have h1 : (perIndexF fs i).id = "" :=
          ih (fun g hg => hall g (List.mem_append_left _ hg))
        have h2 : f.id = "" :=
          hall f (List.mem_append_right _ (List.mem_singleton_self f)) hf
        simp [h1, h2]
      · rw [if_neg hf]
        exact ih (fun g hg => hall g (List.mem_append_left _ hg))
  · intro u inputs h hall
    exact stepLoop_no_error inputs 0 (add_user_msg h u) hall

/-- Witness for the amended C6 at the concrete no-id stream. -/
theorem claim_C6_no_fabricated_id_amended_witness :
    (perIndexEntry csNoId 0).id = "" ∧
    (step "u" [⟨none, [],
        some (parse_stream_message csNoId).asAssistant,
        [⟨"done", false⟩]⟩] [Msg.system "S"]).events.countP
        Event.isError = 0 :=
  ⟨claim_C6_no_fabricated_id_amended.1 csNoId 0 (by decide),
   claim_C6_no_fabricated_id_amended.2 "u"
     [⟨none, [], some (parse_stream_message csNoId).asAssistant,
       [⟨"done", false⟩]⟩] [Msg.system "S"]
     (by decide)⟩

theorem runCalls_msgs_tool (calls : List ToolCall) :
    ∀ execs m, m ∈ (runCalls calls execs).1 →
      ∃ cid out, m = Msg.tool cid out := by
  induction calls with
  | nil => intro execs m hm; cases hm
  | cons tc rest ih =>
    intro execs m hm
    unfold runCalls at hm
    by_cases hi : (execs.headD ⟨"", false⟩).interrupt = true
    · rw [if_pos hi] at hm
      simp only [List.mem_singleton] at hm
      exact ⟨_, _, hm⟩
    · rw [if_neg hi] at hm
      by_cases hn : tc.name = "attempt_completion"
      · rw [if_pos hn] at hm
        simp only [List.mem_singleton] at hm
        exact ⟨_, _, hm⟩
      · rw [if_neg hn] at hm
        rcases List.mem_cons.mp hm with hm | hm
        · exact ⟨_, _, hm⟩
        · exact ih execs.tail m hm

theorem stepLoop_history_shape (inputs : List TurnInput) :
    ∀ stepCount h, ∃ ap, (stepLoop inputs stepCount h).history = h ++ ap ∧
      ∀ m ∈ ap, m.isSystem = false := by
  induction inputs with
  | nil =>
    intro stepCount h
    exact ⟨[], by simp [stepLoop], by intro m hm; cases hm⟩
  | cons inp rest ih =>
    intro stepCount h
    rw [stepLoop]
    by_cases hlt : stepCount < MAX_STEPS
    · rw [if_pos hlt]
      cases hm : inp.resp with
      | none => exact ⟨[], by simp, by intro m hm; cases hm⟩
      | some m =>
        simp only [hm]
        by_cases h1 : (!truthyS m.content && !truthyL m.toolCalls
            && !truthyS m.reasoning) = true
        · rw [if_pos h1]
          exact ⟨[], by simp, by intro x hx; cases hx⟩
        · rw [if_neg h1]
          by_cases h2 : truthyL m.toolCalls = true
          · rw [if_pos h2]
            by_cases h3 : (runCalls (m.toolCalls.getD []) inp.execs).2.2 = true
            · rw [if_pos h3]
              refine ⟨savedMsg m
                :: (runCalls (m.toolCalls.getD []) inp.execs).1, ?_, ?_⟩
              · simp [add_assistant_msg]
              · intro x hx
                rcases List.mem_cons.mp hx with hx | hx
                · rw [hx]; rfl
                · obtain ⟨cid, out, hxe⟩ :=
                    runCalls_msgs_tool _ inp.execs x hx
                  rw [hxe]; rfl
            · rw [if_neg h3]
              obtain ⟨ap, hap, hall⟩ := ih (stepCount + 1)
                (add_assistant_msg h (savedMsg m)
                 ++ (runCalls (m.toolCalls.getD []) inp.execs).1)
              refine ⟨savedMsg m
                :: (runCalls (m.toolCalls.getD []) inp.execs).1 ++ ap,
                ?_, ?_⟩
              · simp only []
                rw [hap]
                simp [add_assistant_msg]
              · intro x hx
                rcases List.mem_append.mp hx with hx | hx
                · rcases List.mem_cons.mp hx with hx | hx
                  · rw [hx]; rfl
                  · obtain ⟨cid, out, hxe⟩ :=
                      runCalls_msgs_tool _ inp.execs x hx
                    rw [hxe]; rfl
                · exact hall x hx
          · rw [if_neg h2]
            refine ⟨[savedMsg m], by simp [add_assistant_msg], ?_⟩
            intro x hx
            simp only [List.mem_singleton] at hx
            rw [hx]; rfl
    · rw [if_neg hlt]
      exact ⟨[], by simp, by intro m hm; cases hm⟩

theorem stepLoop_requests_shape (inputs : List TurnInput) :
    ∀ stepCount h, ∀ req ∈ (stepLoop inputs stepCount h).requests,
      ∃ hh tj, hh <+: (stepLoop inputs stepCount h).history ∧
        req = hh ++ optReminder tj := by
  induction inputs with
  | nil => intro stepCount h req hreq; cases hreq
  | cons inp rest ih =>
    intro stepCount h req hreq
    have hpref : h <+: (stepLoop (inp :: rest) stepCount h).history := by
      obtain ⟨ap, hap, _⟩ := stepLoop_history_shape (inp :: rest) stepCount h
      exact ⟨ap, hap.symm⟩
    rw [stepLoop] at hreq ⊢
    by_cases hlt : stepCount < MAX_STEPS
    · rw [if_pos hlt] at hreq ⊢
      rw [stepLoop, if_pos hlt] at hpref
      cases hm : inp.resp with
      | none =>
        simp only [hm] at hreq hpref ⊢
        simp only [List.mem_singleton] at hreq
        exact ⟨h, inp.todoJson, hpref, hreq⟩
      | some m =>
        simp only [hm] at hreq hpref ⊢
        by_cases h1 : (!truthyS m.content && !truthyL m.toolCalls
            && !truthyS m.reasoning) = true
        · rw [if_pos h1] at hreq hpref ⊢
          simp only [List.mem_singleton] at hreq
          exact ⟨h, inp.todoJson, hpref, hreq⟩
        · rw [if_neg h1] at hreq hpref ⊢
          by_cases h2 : truthyL m.toolCalls = true
          · rw [if_pos h2] at hreq hpref ⊢
            by_cases h3 : (runCalls (m.toolCalls.getD []) inp.execs).2.2 = true
            · rw [if_pos h3] at hreq hpref ⊢
              simp only [List.mem_singleton] at hreq
              exact ⟨h, inp.todoJson, hpref, hreq⟩
            · rw [if_neg h3] at hreq hpref ⊢
              rcases List.mem_cons.mp hreq with hreq | hreq
              · exact ⟨h, inp.todoJson, hpref, hreq⟩
              · obtain ⟨hh, tj, hp, he⟩ := ih (stepCount + 1) _ req hreq
                exact ⟨hh, tj, hp, he⟩
          · rw [if_neg h2] at hreq hpref ⊢
            simp only [List.mem_singleton] at hreq
            exact ⟨h, inp.todoJson, hpref, hreq⟩
    · rw [if_neg hlt] at hreq
      cases hreq

/-- C10: every `ContextManager` mutator appends exactly one message at the
end of the history (leaving every earlier message unchanged); `step`
builds the outgoing model request from a copy of the history — every
request is a prefix of the final persistent history followed by the
optional ephemeral todo reminder — and everything `step` itself appends to
the persistent history is the user message plus non-system messages, so
the reminder (a system message) never enters the persistent history. -/
theorem claim_C10_frame_effects :
    (∀ h c, add_user_msg h c = h ++ [Msg.user c]) ∧
    (∀ h m, add_assistant_msg h m = h ++ [m]) ∧
    (∀ h cid out, add_tool_output h cid out = h ++ [Msg.tool cid out]) ∧
    (∀ u inputs h, ∃ ap, (step u inputs h).history = h ++ Msg.user u :: ap ∧
      ∀ m ∈ ap, m.isSystem = false) ∧
    (∀ u inputs h, ∀ req ∈ (step u inputs h).requests,
      ∃ hh tj, hh <+: (step u inputs h).history ∧
        req = hh ++ optReminder tj) ∧
    (∀ u inputs h tj, todoReminder tj ∉ h →
      todoReminder tj ∉ (step u inputs h).history) := by
  refine ⟨fun h c => rfl, fun h m => rfl, fun h cid out => rfl, ?_, ?_, ?_⟩
  · intro u inputs h
    obtain ⟨ap, hap, hall⟩ := stepLoop_history_shape inputs 0 (add_user_msg h u)
    exact ⟨ap, by rw [step, hap]; simp [add_user_msg], hall⟩
  · intro u inputs h req hreq
    exact stepLoop_requests_shape inputs 0 (add_user_msg h u) req hreq
  · intro u inputs h tj hnot hmem
    obtain ⟨ap, hap, hall⟩ := stepLoop_history_shape inputs 0 (add_user_msg h u)
    rw [step, hap] at hmem
    rcases List.mem_append.mp hmem with hmem | hmem
    · rcases List.mem_append.mp hmem with hmem | hmem
      · exact hnot hmem
      · simp only [List.mem_singleton] at hmem
        cases hmem
    · have := hall _ hmem
      simp [todoReminder, Msg.isSystem] at this

/-- Witness for C10 at concrete inputs: one turn with a non-empty todo
state sends the reminder in the request but never persists it. -/
theorem claim_C10_frame_effects_witness :
    todoReminder "[1]" ∉ [Msg.system "S"] ∧
    todoReminder "[1]"
      ∉ (step "u" [⟨some "[1]", [],
          some ⟨none, some "hi", none⟩, []⟩] [Msg.system "S"]).history :=
  ⟨by decide,
   claim_C10_frame_effects.2.2.2.2.2 "u"
     [⟨some "[1]", [], some ⟨none, some "hi", none⟩, []⟩]
     [Msg.system "S"] "[1]" (by decide)⟩

theorem wfRun_nil (p : List ToolCall) : wfRun p [] = some p := by
  cases p <;> simp [wfRun]

theorem wfRun_append (xs : List Msg) :
    ∀ ys p, wfRun p (xs ++ ys) = (wfRun p xs).bind (fun q => wfRun q ys) := by
  induction xs with
  | nil => intro ys p; rw [List.nil_append, wfRun_nil]; rfl
  | cons m xs ih =>
    intro ys p
    cases m with
    | system c => simp only [List.cons_append, wfRun]; exact ih ys []
    | user c => simp only [List.cons_append, wfRun]; exact ih ys []
    | assistant r c tcs =>
      simp only [List.cons_append, wfRun]; exact ih ys (tcs.getD [])
    | tool cid out =>
      cases p with
      | nil => simp [List.cons_append, wfRun]
      | cons tc pend =>
        simp only [List.cons_append, wfRun]
        by_cases hc : cid = tc.id
        · rw [if_pos hc, if_pos hc]
          exact ih ys pend
        · rw [if_neg hc, if_neg hc]
          rfl

theorem runCalls_wfRun (calls : List ToolCall) :
    ∀ execs, ∃ q, wfRun calls (runCalls calls execs).1 = some q := by
  induction calls with
  | nil => intro execs; exact ⟨[], rfl⟩
  | cons tc rest ih =>
    intro execs
    unfold runCalls
    by_cases hi : (execs.headD ⟨"", false⟩).interrupt = true
    · rw [if_pos hi]
      exact ⟨rest, by simp [wfRun, wfRun_nil]⟩
    · rw [if_neg hi]
      by_cases hn : tc.name = "attempt_completion"
      · rw [if_pos hn]
        exact ⟨rest, by simp [wfRun, wfRun_nil]⟩
      · rw [if_neg hn]
        obtain ⟨q, hq⟩ := ih execs.tail
        exact ⟨q, by simp only [wfRun, if_pos rfl]; simpa using hq⟩

theorem historyWF_shape {h : List Msg} (hw : historyWF h = true) :
    ∃ c t, h = Msg.system c :: t ∧ (wfRun [] t).isSome = true := by
  cases h with
  | nil => cases hw
  | cons m t =>
    cases m with
    | system c => exact ⟨c, t, rfl, hw⟩
    | user c => cases hw
    | assistant r c tcs => cases hw
    | tool cid out => cases hw

theorem historyWF_append_user {h : List Msg} (c : String)
    (hw : historyWF h = true) : historyWF (h ++ [Msg.user c]) = true := by
  obtain ⟨s, t, rfl, hs⟩ := historyWF_shape hw
  rw [List.cons_append]
  show (wfRun [] (t ++ [Msg.user c])).isSome = true
  rw [wfRun_append]
  obtain ⟨q, hq⟩ := Option.isSome_iff_exists.mp hs
  rw [hq]
  simp [wfRun, wfRun_nil]

theorem stepLoop_wf (inputs : List TurnInput) :
    ∀ stepCount h, historyWF h = true →
      historyWF (stepLoop inputs stepCount h).history = true := by
  induction inputs with
  | nil => intro stepCount h hw; exact hw
  | cons inp rest ih =>
    intro stepCount h hw
    rw [stepLoop]
    by_cases hlt : stepCount < MAX_STEPS
    · rw [if_pos hlt]
      cases hm : inp.resp with
      | none => exact hw
      | some m =>
        simp only [hm]
        by_cases h1 : (!truthyS m.content && !truthyL m.toolCalls
            && !truthyS m.reasoning) = true
        · rw [if_pos h1]; exact hw
        · rw [if_neg h1]
          obtain ⟨s, t, hh, hs⟩ := historyWF_shape hw
          obtain ⟨q, hq⟩ := Option.isSome_iff_exists.mp hs
          by_cases h2 : truthyL m.toolCalls = true
          · rw [if_pos h2]
            have hwf2 : historyWF
                (add_assistant_msg h (savedMsg m)
                 ++ (runCalls (m.toolCalls.getD []) inp.execs).1) = true := by
              rw [add_assistant_msg, hh]
              rw [List.cons_append, List.cons_append]
              show (wfRun [] ((t ++ [savedMsg m])
                ++ (runCalls (m.toolCalls.getD []) inp.execs).1)).isSome = true
              rw [wfRun_append, wfRun_append, hq]
              obtain ⟨q3, hq3⟩ :=
                runCalls_wfRun (m.toolCalls.getD []) inp.execs
              simp only [Option.some_bind]
              rw [savedMsg, wfRun, wfRun]
              simp [hq3]
            by_cases h3 : (runCalls (m.toolCalls.getD []) inp.execs).2.2 = true
            · rw [if_pos h3]
              exact hwf2
            · rw [if_neg h3]
              exact ih (stepCount + 1) _ hwf2
          · rw [if_neg h2]
            rw [add_assistant_msg, hh, List.cons_append]
            show (wfRun [] (t ++ [savedMsg m])).isSome = true
            rw [wfRun_append, hq]
            simp only [Option.some_bind]
            rw [savedMsg, wfRun, wfRun]
            rfl
    · rw [if_neg hlt]
      exact hw

theorem wfRun_tool_preceded (t : List Msg) :
    ∀ p k cid out, (wfRun p t).isSome = true →
      t.get? k = some (Msg.tool cid out) →
      1 ≤ p.countP (fun tc => tc.id == cid) + precCount t k cid := by
  induction t with
  | nil => intro p k cid out _ hk; cases k <;> cases hk
  | cons m rest ih =>
    intro p k cid out hw hk
    cases k with
    | zero =>
      rw [List.get?_cons_zero] at hk
      injection hk with hk
      subst hk
      cases p with
      | nil => simp [wfRun] at hw
      | cons tc pend =>
        by_cases hc : cid = tc.id
        · have : tc.id == cid := by simp [hc]
          simp [List.countP_cons, this]
          omega
        · simp [wfRun, hc] at hw
    | succ k =>
      rw [List.get?_cons_succ] at hk
      cases m with
      | system c =>
        simp only [wfRun] at hw
        have := ih [] k cid out hw hk
        simp only [List.countP_nil, Nat.zero_add] at this
        show 1 ≤ _ + (0 + precCount rest k cid)
        omega
      | user c =>
        simp only [wfRun] at hw
        have := ih [] k cid out hw hk
        simp only [List.countP_nil, Nat.zero_add] at this
        show 1 ≤ _ + (0 + precCount rest k cid)
        omega
      | assistant r c tcs =>
        simp only [wfRun] at hw
        have := ih (tcs.getD []) k cid out hw hk
        cases tcs with
        | none =>
          simp only [Option.getD_none, List.countP_nil, Nat.zero_add] at this
          show 1 ≤ _ + (0 + precCount rest k cid)
          omega
        | some l =>
          simp only [Option.getD_some] at this
          show 1 ≤ _ + (l.countP (fun tc => tc.id == cid)
            + precCount rest k cid)
          omega
      | tool cid' out' =>
        cases p with
        | nil => simp [wfRun] at hw
        | cons tc pend =>
          by_cases hc : cid' = tc.id
          · simp only [wfRun, if_pos hc] at hw
            have := ih pend k cid out hw hk
            have hcp : (tc :: pend).countP (fun tc => tc.id == cid)
                = pend.countP (fun tc => tc.id == cid)
                  + (if tc.id == cid then 1 else 0) := by
              rw [List.countP_cons]
            show 1 ≤ (tc :: pend).countP (fun tc => tc.id == cid)
              + (0 + precCount rest k cid)
            omega
          · simp [wfRun, hc] at hw

theorem reachableAll_head {h : List Msg} (hr : ReachableAll h) :
    ∃ c t, h = Msg.system c :: t := by
  induction hr with
  | init cwd skills => exact ⟨_, [], rfl⟩
  | addUser c _ ih =>
    obtain ⟨c0, t, rfl⟩ := ih
    exact ⟨c0, t ++ [Msg.user c], rfl⟩
  | addAssistant m _ ih =>
    obtain ⟨c0, t, rfl⟩ := ih
    exact ⟨c0, t ++ [m], rfl⟩
  | addToolOutput cid out _ ih =>
    obtain ⟨c0, t, rfl⟩ := ih
    exact ⟨c0, t ++ [Msg.tool cid out], rfl⟩
  | doReset cwd skills _ ih =>
    obtain ⟨c0, t, rfl⟩ := ih
    exact ⟨c0, [], rfl⟩
  | doLoad _ _ ih ih' =>
    obtain ⟨c0, t, rfl⟩ := ih
    obtain ⟨c1, t', rfl⟩ := ih'
    exact ⟨c0, t', rfl⟩
  | turn u inputs _ ih =>
    obtain ⟨c0, t, rfl⟩ := ih
    obtain ⟨ap, hap, _⟩ := stepLoop_history_shape inputs 0
      (add_user_msg (Msg.system c0 :: t) u)
    exact ⟨c0, t ++ Msg.user u :: ap, by
      rw [step, hap]
      simp [add_user_msg]⟩

theorem reachableLoop_wf {h : List Msg} (hr : ReachableLoop h) :
    historyWF h = true := by
  induction hr with
  | init cwd skills => simp [historyWF, wfRun_nil]
  | addUser c _ ih => exact historyWF_append_user c ih
  | doReset cwd skills _ ih =>
    obtain ⟨c0, t, rfl, _⟩ := historyWF_shape ih
    show historyWF [Msg.system c0] = true
    simp [historyWF, wfRun_nil]
  | doLoad _ _ ih ih' =>
    obtain ⟨c0, t, rfl, _⟩ := historyWF_shape ih
    obtain ⟨c1, t', rfl, hs'⟩ := historyWF_shape ih'
    show historyWF (List.take 1 (Msg.system c0 :: t) ++ t') = true
    rw [List.take_succ_cons, List.take_zero]
    exact hs'
  | turn u inputs _ ih =>
    exact stepLoop_wf inputs 0 _ (historyWF_append_user u ih)

/-- Counterexample to C1 as stated.  Both histories arise from valid
mutation sequences.  In `histA` (a bare `add_tool_output`), the tool
message at index 1 matches **zero** preceding assistant tool-calls.  In
`histB` (a pure step turn with a duplicated vendor id and an `ask_user`
interrupt on the first of two calls), the tool message at index 3 matches
**two** preceding assistant tool-calls — not exactly one — and the
assistant at index 2 carries N = 2 tool-calls yet the history ends after a
single tool response, so the next N messages are not the N responses. -/
theorem claim_C1_history_invariant_counterexample :
    (ReachableAll histA ∧ histA.get? 1 = some (Msg.tool "c9" "boom") ∧
      precCount histA 1 "c9" = 0) ∧
    (ReachableAll histB ∧ ReachableLoop histB ∧
      histB.get? 3 = some (Msg.tool "c1" "Q?") ∧
      precCount histB 3 "c1" = 2 ∧
      histB.get? 2 = some (Msg.assistant none (some "x")
        (some [⟨"c1", "ask_followup_question", ""⟩,
               ⟨"c1", "edit_file", ""⟩])) ∧
      histB.length = 4) := by
  refine ⟨⟨ReachableAll.addToolOutput "c9" "boom"
      (ReachableAll.init "/w" none), by decide, by decide⟩,
    ⟨ReachableAll.turn "u" _ (ReachableAll.init "/w" none),
     ReachableLoop.turn "u" _ (ReachableLoop.init "/w" none),
     by decide, by decide, by decide, by decide⟩⟩

/-- C1 (amended): for every history produced by any sequence of valid
mutations — including bare `add_assistant_msg` / `add_tool_output` with
arbitrary payloads — the message at index 0 is a system message.  For
histories produced without the bare assistant/tool-output mutators (user
messages, resets, loads of saved histories, and step turns), the history
is well-shaped: every maximal run of tool messages directly follows an
assistant message and answers, in declared order, an initial prefix of its
tool-calls — all of them unless the turn ended early — and consequently
every tool message's `call_id` matches **at least one** preceding
assistant tool-call. -/
theorem claim_C1_history_invariant_amended :
    (∀ h, ReachableAll h → ∃ c t, h = Msg.system c :: t) ∧
    (∀ h, ReachableLoop h → historyWF h = true) ∧
    (∀ h k cid out, historyWF h = true →
      h.get? k = some (Msg.tool cid out) → 1 ≤ precCount h k cid) := by
  refine ⟨fun h hr => reachableAll_head hr,
    fun h hr => reachableLoop_wf hr, ?_⟩
  intro h k cid out hw hk
  obtain ⟨c, t, rfl, hs⟩ := historyWF_shape hw
  cases k with
  | zero => rw [List.get?_cons_zero] at hk; cases hk
  | succ k =>
    rw [List.get?_cons_succ] at hk
    have := wfRun_tool_preceded t [] k cid out hs hk
    simp only [List.countP_nil, Nat.zero_add] at this
    show 1 ≤ 0 + precCount t k cid
    omega

/-- Witness for the amended C1 at concrete histories. -/
theorem claim_C1_history_invariant_amended_witness :
    (∃ c t, histB = Msg.system c :: t) ∧
    historyWF [Msg.system (build_system_prompt "/w" none)] = true ∧
    1 ≤ precCount [Msg.system "S",
      Msg.assistant none none (some [⟨"c1", "t", "a"⟩]),
      Msg.tool "c1" "o"] 2 "c1" :=
  ⟨claim_C1_history_invariant_amended.1 histB
    (ReachableAll.turn "u" _ (ReachableAll.init "/w" none)),
   claim_C1_history_invariant_amended.2.1 _ (ReachableLoop.init "/w" none),
   claim_C1_history_invariant_amended.2.2
     [Msg.system "S", Msg.assistant none none (some [⟨"c1", "t", "a"⟩]),
      Msg.tool "c1" "o"] 2 "c1" "o" (by decide) (by decide)⟩

lemma jsonWs_pyWs {c : Char} (h : isJsonWs c = true) : isPyWs c = true := by
  simp only [isJsonWs, Bool.or_eq_true, decide_eq_true_eq] at h
  repeat' rcases h with h | h
  all_goals decide

lemma digit_not_jsonWs {c : Char} (h : c.isDigit = true) :
    isJsonWs c = false := by
  cases hw : isJsonWs c with
  | false => rfl
  | true =>
    exfalso
    simp only [isJsonWs, Bool.or_eq_true, decide_eq_true_eq] at hw
    repeat' rcases hw with hw | hw
    all_goals exact absurd h (by decide)

lemma digit_not_pyWs {c : Char} (h : c.isDigit = true) :
    isPyWs c = false := by
  cases hw : isPyWs c with
  | false => rfl
  | true =>
    exfalso
    simp only [isPyWs, Bool.or_eq_true, decide_eq_true_eq] at hw
    repeat' rcases hw with hw | hw
    all_goals exact absurd h (by decide)

lemma digit_ne {c x : Char} (h : c.isDigit = true) (hx : x.isDigit = false) :
    c ≠ x := by
  intro he; subst he; rw [h] at hx; exact absurd hx (by decide)

lemma starter_not_jsonWs {c : Char} (h : isStarter c = true) :
    isJsonWs c = false := by
  simp only [isStarter, Bool.or_eq_true, decide_eq_true_eq] at h
  repeat' rcases h with h | h
  all_goals first
    | decide
    | exact digit_not_jsonWs h

lemma starter_not_pyWs {c : Char} (h : isStarter c = true) :
    isPyWs c = false := by
  simp only [isStarter, Bool.or_eq_true, decide_eq_true_eq] at h
  repeat' rcases h with h | h
  all_goals first
    | decide
    | exact digit_not_pyWs h

lemma starter_ne_close {c : Char} (h : isStarter c = true) :
    c ≠ ']' ∧ c ≠ '}' ∧ c ≠ '`' := by
  simp only [isStarter, Bool.or_eq_true, decide_eq_true_eq] at h
  repeat' rcases h with h | h
  all_goals first
    | (exact ⟨by decide, by decide, by decide⟩)
    | exact ⟨digit_ne h (by decide), digit_ne h (by decide),
        digit_ne h (by decide)⟩

lemma safeTail_numContSafe {t : List Char} (h : safeTail t = true) :
    numContSafe t = true := by
  cases t with
  | nil => rfl
  | cons c r =>
    simp only [safeTail, Bool.or_eq_true, decide_eq_true_eq] at h
    rcases h with ((h | h) | h) | h
    · simp only [isJsonWs, Bool.or_eq_true, decide_eq_true_eq] at h
      repeat' rcases h with h | h
      all_goals rfl
    all_goals first | rfl | (subst h; rfl)

lemma numContSafe_fracSafe {t : List Char} (h : numContSafe t = true) :
    fracSafe t = true := by
  cases t with
  | nil => rfl
  | cons c r =>
    simp only [numContSafe, Bool.not_eq_true', Bool.or_eq_false_iff] at h
    simp only [fracSafe, Bool.not_eq_true', Bool.or_eq_false_iff]
    exact ⟨h.1.1.1, h.1.1.2⟩

lemma numContSafe_expSafe {t : List Char} (h : numContSafe t = true) :
    expSafe t = true := by
  cases t with
  | nil => rfl
  | cons c r =>
    simp only [numContSafe, Bool.not_eq_true', Bool.or_eq_false_iff] at h
    simp only [expSafe, Bool.not_eq_true', Bool.or_eq_false_iff]
    exact ⟨⟨h.1.1.1, h.1.2⟩, h.2⟩

lemma safeTail_append {pre t : List Char} (hne : pre ≠ [])
    (h : safeTail pre = true) : safeTail (pre ++ t) = true := by
  cases pre with
  | nil => exact absurd rfl hne
  | cons c r => exact h

lemma dropWhile_append_all {p : Char → Bool} :
    ∀ {w l : List Char}, (∀ c ∈ w, p c = true) →
      (w ++ l).dropWhile p = l.dropWhile p := by
  intro w
  induction w with
  | nil => intro l _; rfl
  | cons a w ih =>
    intro l h
    rw [List.cons_append, List.dropWhile_cons, if_pos (h a (List.mem_cons_self a w))]
    exact ih fun c hc => h c (List.mem_cons_of_mem a hc)

lemma dropWhile_cons_false {p : Char → Bool} {c : Char} {l : List Char}
    (h : p c = false) : (c :: l).dropWhile p = c :: l := by
  rw [List.dropWhile_cons, if_neg (by simp [h])]

lemma dropWhile_all_false {p : Char → Bool} :
    ∀ {l : List Char}, l.dropWhile p = [] → ∀ c ∈ l, p c = true := by
  intro l
  induction l with
  | nil => intro _ c hc; cases hc
  | cons a l ih =>
    intro h c hc
    rw [List.dropWhile_cons] at h
    by_cases hp : p a
    · rcases List.mem_cons.mp hc with hce | hcm
      · exact hce ▸ hp
      · exact ih (by rwa [if_pos hp] at h) c hcm
    · rw [if_neg hp] at h; cases h

lemma dropWhile_head_false {p : Char → Bool} :
    ∀ {l : List Char} {c : Char} {r : List Char},
      l.dropWhile p = c :: r → p c = false := by
  intro l
  induction l with
  | nil => intro c r h; cases h
  | cons a l ih =>
    intro c r h
    rw [List.dropWhile_cons] at h
    by_cases hp : p a
    · exact ih (by rwa [if_pos hp] at h)
    · rw [if_neg hp] at h
      cases h
      exact Bool.eq_false_iff.mpr hp

lemma takeWhile_mem_true {p : Char → Bool} :
    ∀ {l : List Char}, ∀ c ∈ l.takeWhile p, p c = true := by
  intro l
  induction l with
  | nil => intro c hc; cases hc
  | cons a l ih =>
    intro c hc
    rw [List.takeWhile_cons] at hc
    by_cases hp : p a
    · rw [if_pos hp] at hc
      rcases List.mem_cons.mp hc with hce | hcm
      · exact hce ▸ hp
      · exact ih c hcm
    · rw [if_neg hp] at hc; cases hc

/-- `skipWs` decomposition: the dropped prefix is all-whitespace. -/
lemma skipWs_decomp (l : List Char) :
    ∃ w, l = w ++ skipWs l ∧ ∀ c ∈ w, isJsonWs c = true :=
  ⟨l.takeWhile isJsonWs, (List.takeWhile_append_dropWhile _ _).symm,
    takeWhile_mem_true⟩

lemma skipWs_append_all {w l : List Char} (h : ∀ c ∈ w, isJsonWs c = true) :
    skipWs (w ++ l) = skipWs l := dropWhile_append_all h

lemma skipWs_cons_false {c : Char} {l : List Char} (h : isJsonWs c = false) :
    skipWs (c :: l) = c :: l := dropWhile_cons_false h

lemma getLastD_append_ne {xs ys : List Char} {d : Char} (h : ys ≠ []) :
    (xs ++ ys).getLastD d = ys.getLastD d := by
  rw [List.getLastD_eq_getLast?, List.getLastD_eq_getLast?,
    List.getLast?_append]
  cases hy : ys.getLast? with
  | none => exact absurd (List.getLast?_eq_none_iff.mp hy) h
  | some y => rfl

lemma getLastD_all {P : Char → Bool} :
    ∀ {l : List Char} {a d : Char}, P a = true → (∀ c ∈ l, P c = true) →
      P (List.getLastD (a :: l) d) = true := by
  intro l
  induction l with
  | nil => intro a d ha _; simpa using ha
  | cons b l ih =>
    intro a d ha h
    rw [List.getLastD_cons, List.getLastD_cons]
    have := ih (a := b) (d := b) (h b (List.mem_cons_self b l))
      fun c hc => h c (List.mem_cons_of_mem b hc)
    rwa [List.getLastD_cons] at this

/-! ### The string-body lexeme -/

lemma psb_spec : ∀ n : Nat, ∀ m body r : List Char, m.length ≤ n →
    parseStringBody m = some (body, r) →
    m = body ++ '"' :: r ∧
      ∀ t, parseStringBody (body ++ '"' :: t) = some (body, t) := by
  intro n
  induction n with
  | zero =>
    intro m body r hlen h
    cases m with
    | nil => simp [parseStringBody] at h
    | cons c rest => simp at hlen
  | succ n ih =>
    intro m body r hlen h
    cases m with
    | nil => simp [parseStringBody] at h
    | cons c rest =>
      simp only [List.length_cons] at hlen
      rw [parseStringBody.eq_def] at h
      dsimp only at h
      by_cases hq : c = '"'
      · rw [if_pos hq] at h
        rw [Option.some.injEq, Prod.mk.injEq] at h
        obtain ⟨hb, hr⟩ := h
        subst hb; subst hr; subst hq
        exact ⟨rfl, fun t => by rw [parseStringBody.eq_def]; simp⟩
      · rw [if_neg hq] at h
        by_cases hbs : c = '\\'
        · rw [if_pos hbs] at h
          cases rest with
          | nil => simp at h
          | cons e rest1 =>
            simp only [List.length_cons] at hlen
            try dsimp only at h
            by_cases hesc : (e = '"' || e = '\\' || e = '/' || e = 'b'
                || e = 'f' || e = 'n' || e = 'r' || e = 't') = true
            · rw [if_pos hesc] at h
              cases hps : parseStringBody rest1 with
              | none => rw [hps] at h; simp at h
              | some p =>
                obtain ⟨p1, p2⟩ := p
                rw [hps] at h
                simp only [Option.map_some', Option.some.injEq,
                  Prod.mk.injEq] at h
                obtain ⟨hb, hr⟩ := h
                subst hb; subst hr; subst hbs
                obtain ⟨hdec, hrep⟩ := ih rest1 p1 p2 (by omega) hps
                subst hdec
                refine ⟨by simp, fun t => ?_⟩
                rw [parseStringBody.eq_def]
                simp [hesc, hrep t]
            · rw [if_neg hesc] at h
              by_cases hu : e = 'u'
              · rw [if_pos hu] at h
                match rest1, hlen with
                | [], _ => simp at h
                | [a], _ => simp at h
                | [a, b], _ => simp at h
                | [a, b, c2], _ => simp at h
                | a :: b :: c2 :: d :: rest2, hlen =>
                  simp only [List.length_cons] at hlen
                  try dsimp only at h
                  by_cases hhex : (isHexDigit a && isHexDigit b
                      && isHexDigit c2 && isHexDigit d) = true
                  · rw [if_pos hhex] at h
                    cases hps : parseStringBody rest2 with
                    | none => rw [hps] at h; simp at h
                    | some p =>
                      obtain ⟨p1, p2⟩ := p
                      rw [hps] at h
                      simp only [Option.map_some', Option.some.injEq,
                        Prod.mk.injEq] at h
                      obtain ⟨hb, hr⟩ := h
                      subst hb; subst hr; subst hbs; subst hu
                      obtain ⟨hdec, hrep⟩ := ih rest2 p1 p2 (by omega) hps
                      subst hdec
                      refine ⟨by simp, fun t => ?_⟩
                      rw [parseStringBody.eq_def]
                      simp [hhex, hrep t]
                  · rw [if_neg hhex] at h; simp at h
              · rw [if_neg hu] at h; simp at h
        · rw [if_neg hbs] at h
          by_cases hctl : c.toNat < 0x20
          · rw [if_pos hctl] at h; simp at h
          · rw [if_neg hctl] at h
            cases hps : parseStringBody rest with
            | none => rw [hps] at h; simp at h
            | some p =>
              obtain ⟨p1, p2⟩ := p
              rw [hps] at h
              simp only [Option.map_some', Option.some.injEq,
                Prod.mk.injEq] at h
              obtain ⟨hb, hr⟩ := h
              subst hb; subst hr
              obtain ⟨hdec, hrep⟩ := ih rest p1 p2 (by omega) hps
              subst hdec
              refine ⟨by simp, fun t => ?_⟩
              rw [parseStringBody.eq_def]
              simp [hq, hbs, hctl, hrep t]

/-! ### The number lexeme -/

lemma fracSafe_headNotDigit {t : List Char} (h : fracSafe t = true) :
    ∀ c rr, t = c :: rr → c.isDigit = false := by
  intro c rr he
  subst he
  simp only [fracSafe, Bool.not_eq_true', Bool.or_eq_false_iff] at h
  exact h.1

lemma expSafe_headNotDigit {t : List Char} (h : expSafe t = true) :
    ∀ c rr, t = c :: rr → c.isDigit = false := by
  intro c rr he
  subst he
  simp only [expSafe, Bool.not_eq_true', Bool.or_eq_false_iff] at h
  exact h.1.1

lemma takeDigits_append {d t : List Char} (hd : ∀ c ∈ d, c.isDigit = true)
    (ht : ∀ c rr, t = c :: rr → c.isDigit = false) :
    takeDigits (d ++ t) = (d, t) := by
  induction d with
  | nil =>
    cases t with
    | nil => rfl
    | cons c r =>
      simp [takeDigits, List.takeWhile_cons, List.dropWhile_cons, ht c r rfl]
  | cons a d ih =>
    have ha := hd a (List.mem_cons_self a d)
    have ihr := ih fun c hc => hd c (List.mem_cons_of_mem a hc)
    simp only [takeDigits, Prod.mk.injEq] at ihr ⊢
    rw [List.cons_append, List.takeWhile_cons, List.dropWhile_cons]
    simp [ha, ihr.1, ihr.2]

lemma takeDigits_spec {l d r : List Char} (h : takeDigits l = (d, r)) :
    l = d ++ r ∧ (∀ c ∈ d, c.isDigit = true) ∧
      (∀ c rr, r = c :: rr → c.isDigit = false) := by
  simp only [takeDigits, Prod.mk.injEq] at h
  obtain ⟨hd, hr⟩ := h
  subst hd; subst hr
  refine ⟨(List.takeWhile_append_dropWhile _ _).symm, takeWhile_mem_true,
    fun c rr hc => dropWhile_head_false hc⟩

lemma parseFracPart_spec {acc m a1 m1 : List Char}
    (h : parseFracPart acc m = (a1, m1)) :
    ∃ fr, a1 = acc ++ fr ∧ m = fr ++ m1 ∧
      (fr = [] ∨ ((fr.getLastD ' ').isDigit = true ∧ fr.headD ' ' = '.')) ∧
      ∀ acc' t, fracSafe t = true →
        parseFracPart acc' (fr ++ t) = (acc' ++ fr, t) := by
  cases m with
  | nil =>
    simp only [parseFracPart, Prod.mk.injEq] at h
    obtain ⟨h1, h2⟩ := h; subst h1; subst h2
    refine ⟨[], by simp, rfl, Or.inl rfl, fun acc' t ht => ?_⟩
    cases t with
    | nil => simp [parseFracPart]
    | cons c r =>
      simp only [fracSafe, Bool.not_eq_true', Bool.or_eq_false_iff,
        decide_eq_false_iff_not] at ht
      simp [parseFracPart, ht.2]
  | cons c r =>
    rw [parseFracPart.eq_def] at h
    try dsimp only at h
    by_cases hdot : c = '.'
    · rw [if_pos hdot] at h
      cases r with
      | nil =>
        simp only [Prod.mk.injEq] at h
        obtain ⟨h1, h2⟩ := h; subst h1; subst h2
        refine ⟨[], by simp, rfl, Or.inl rfl, fun acc' t ht => ?_⟩
        cases t with
        | nil => simp [parseFracPart]
        | cons c2 r2 =>
          simp only [fracSafe, Bool.not_eq_true', Bool.or_eq_false_iff,
            decide_eq_false_iff_not] at ht
          simp [parseFracPart, ht.2]
      | cons d r2 =>
        try dsimp only at h
        by_cases hdig : d.isDigit
        · rw [if_pos hdig] at h
          simp only [Prod.mk.injEq] at h
          obtain ⟨h1, h2⟩ := h
          obtain ⟨hr2, hdall, hstop⟩ := takeDigits_spec (l := r2)
            (d := (takeDigits r2).1) (r := (takeDigits r2).2) rfl
          subst hdot
          refine ⟨'.' :: d :: (takeDigits r2).1, h1.symm, ?_, Or.inr ⟨?_, rfl⟩,
            fun acc' t ht => ?_⟩
          · conv_lhs => rw [hr2]
            rw [← h2]
            simp
          · rw [List.getLastD_cons]
            exact getLastD_all hdig hdall
          · rw [parseFracPart.eq_def]
            simp only [List.cons_append]
            rw [if_pos trivial, if_pos hdig,
              takeDigits_append hdall (fracSafe_headNotDigit ht)]
        · rw [if_neg hdig] at h
          simp only [Prod.mk.injEq] at h
          obtain ⟨h1, h2⟩ := h; subst h1; subst h2
          refine ⟨[], by simp, rfl, Or.inl rfl, fun acc' t ht => ?_⟩
          cases t with
          | nil => simp [parseFracPart]
          | cons c2 rr =>
            simp only [fracSafe, Bool.not_eq_true', Bool.or_eq_false_iff,
              decide_eq_false_iff_not] at ht
            simp [parseFracPart, ht.2]
    · rw [if_neg hdot] at h
      simp only [Prod.mk.injEq] at h
      obtain ⟨h1, h2⟩ := h; subst h1; subst h2
      refine ⟨[], by simp, rfl, Or.inl rfl, fun acc' t ht => ?_⟩
      cases t with
      | nil => simp [parseFracPart]
      | cons c2 rr =>
        simp only [fracSafe, Bool.not_eq_true', Bool.or_eq_false_iff,
          decide_eq_false_iff_not] at ht
        simp [parseFracPart, ht.2]

lemma expPart_nil_replay {acc' t : List Char} (ht : expSafe t = true) :
    parseExpPart acc' t = (acc', t) := by
  cases t with
  | nil => simp [parseExpPart]
  | cons c r =>
    simp only [expSafe, Bool.not_eq_true', Bool.or_eq_false_iff,
      decide_eq_false_iff_not] at ht
    rw [parseExpPart.eq_def]
    have : (c = 'e' || c = 'E') = false := by
      simp [ht.1.2, ht.2]
    simp [this]

lemma parseExpPart_spec {acc m a1 m1 : List Char}
    (h : parseExpPart acc m = (a1, m1)) :
    ∃ ex, a1 = acc ++ ex ∧ m = ex ++ m1 ∧
      (ex = [] ∨ ((ex.getLastD ' ').isDigit = true ∧
        (ex.headD ' ' = 'e' ∨ ex.headD ' ' = 'E'))) ∧
      ∀ acc' t, expSafe t = true →
        parseExpPart acc' (ex ++ t) = (acc' ++ ex, t) := by
  cases m with
  | nil =>
    simp only [parseExpPart, Prod.mk.injEq] at h
    obtain ⟨h1, h2⟩ := h; subst h1; subst h2
    exact ⟨[], by simp, rfl, Or.inl rfl,
      fun acc' t ht => by simpa using expPart_nil_replay ht⟩
  | cons c r =>
    rw [parseExpPart.eq_def] at h
    try dsimp only at h
    by_cases he : (c = 'e' || c = 'E') = true
    · rw [if_pos he] at h
      cases r with
      | nil =>
        simp only [Prod.mk.injEq] at h
        obtain ⟨h1, h2⟩ := h; subst h1; subst h2
        exact ⟨[], by simp, rfl, Or.inl rfl,
          fun acc' t ht => by simpa using expPart_nil_replay ht⟩
      | cons s r2 =>
        try dsimp only at h
        by_cases hsign : (s = '+' || s = '-') = true
        · rw [if_pos hsign] at h
          cases r2 with
          | nil =>
            simp only [Prod.mk.injEq] at h
            obtain ⟨h1, h2⟩ := h; subst h1; subst h2
            exact ⟨[], by simp, rfl, Or.inl rfl,
              fun acc' t ht => by simpa using expPart_nil_replay ht⟩
          | cons d r3 =>
            try dsimp only at h
            by_cases hdig : d.isDigit
            · rw [if_pos hdig] at h
              simp only [Prod.mk.injEq] at h
              obtain ⟨h1, h2⟩ := h
              obtain ⟨hr3, hdall, hstop⟩ := takeDigits_spec (l := r3)
                (d := (takeDigits r3).1) (r := (takeDigits r3).2) rfl
              refine ⟨c :: s :: d :: (takeDigits r3).1, h1.symm, ?_,
                Or.inr ⟨?_, ?_⟩, fun acc' t ht => ?_⟩
              · conv_lhs => rw [hr3]
                rw [← h2]
                simp
              · rw [List.getLastD_cons, List.getLastD_cons]
                exact getLastD_all hdig hdall
              · simpa using he
              · rw [parseExpPart.eq_def]
                simp only [List.cons_append]
                rw [if_pos he, if_pos hsign, if_pos hdig,
                  takeDigits_append hdall (expSafe_headNotDigit ht)]
            · rw [if_neg hdig] at h
              simp only [Prod.mk.injEq] at h
              obtain ⟨h1, h2⟩ := h; subst h1; subst h2
              exact ⟨[], by simp, rfl, Or.inl rfl,
                fun acc' t ht => by simpa using expPart_nil_replay ht⟩
        · rw [if_neg hsign] at h
          by_cases hsd : s.isDigit
          · rw [if_pos hsd] at h
            simp only [Prod.mk.injEq] at h
            obtain ⟨h1, h2⟩ := h
            obtain ⟨hr2, hdall, hstop⟩ := takeDigits_spec (l := r2)
              (d := (takeDigits r2).1) (r := (takeDigits r2).2) rfl
            refine ⟨c :: s :: (takeDigits r2).1, h1.symm, ?_,
              Or.inr ⟨?_, ?_⟩, fun acc' t ht => ?_⟩
            · conv_lhs => rw [hr2]
              rw [← h2]
              simp
            · rw [List.getLastD_cons]
              exact getLastD_all hsd hdall
            · simpa using he
            · rw [parseExpPart.eq_def]
              simp only [List.cons_append]
              rw [if_pos he, if_neg hsign, if_pos hsd,
                takeDigits_append hdall (expSafe_headNotDigit ht)]
          · rw [if_neg hsd] at h
            simp only [Prod.mk.injEq] at h
            obtain ⟨h1, h2⟩ := h; subst h1; subst h2
            exact ⟨[], by simp, rfl, Or.inl rfl,
              fun acc' t ht => by simpa using expPart_nil_replay ht⟩
    · rw [if_neg he] at h
      simp only [Prod.mk.injEq] at h
      obtain ⟨h1, h2⟩ := h; subst h1; subst h2
      exact ⟨[], by simp, rfl, Or.inl rfl,
        fun acc' t ht => by simpa using expPart_nil_replay ht⟩

lemma fracExp_spec {A m lex r : List Char}
    (h : parseExpPart (parseFracPart A m).1 (parseFracPart A m).2
      = (lex, r)) :
    ∃ fe, lex = A ++ fe ∧ m = fe ++ r ∧
      (fe = [] ∨ (fe.getLastD ' ').isDigit = true) ∧
      (fe = [] ∨ fe.headD ' ' = '.' ∨ fe.headD ' ' = 'e'
        ∨ fe.headD ' ' = 'E') ∧
      ∀ A' t, numContSafe t = true →
        parseExpPart (parseFracPart A' (fe ++ t)).1
          (parseFracPart A' (fe ++ t)).2 = (A' ++ fe, t) := by
  obtain ⟨fr, hfr1, hfr2, hfrL, hfrR⟩ :=
    @parseFracPart_spec A m (parseFracPart A m).1 (parseFracPart A m).2 rfl
  rw [hfr1] at h
  obtain ⟨ex, hex1, hex2, hexL, hexR⟩ := parseExpPart_spec h
  refine ⟨fr ++ ex, by rw [hex1]; simp, ?_, ?_, ?_, ?_⟩
  · rw [hfr2, hex2]; simp
  · rcases hexL with hexe | ⟨hexd, _⟩
    · subst hexe
      rcases hfrL with hfre | ⟨hfrd, _⟩
      · subst hfre; exact Or.inl rfl
      · exact Or.inr (by simpa using hfrd)
    · cases hex0 : ex with
      | nil => subst hex0; exact absurd hexd (by decide)
      | cons e0 ex' =>
        right
        rw [getLastD_append_ne (by simp [hex0])]
        exact hex0 ▸ hexd
  · rcases hfrL with hfre | ⟨_, hfrh⟩
    · subst hfre
      rcases hexL with hexe | ⟨_, hexh⟩
      · exact Or.inl (by simp [hexe])
      · cases ex with
        | nil => exact Or.inl rfl
        | cons e0 ex' => simp only [List.nil_append]; tauto
    · cases fr with
      | nil => simp at hfrh
      | cons f0 fr' => simp only [List.cons_append]; tauto
  · intro A' t ht
    have hfrrep := hfrR A' (ex ++ t) ?_
    · rw [List.append_assoc, hfrrep]
      have hexrep := hexR (A' ++ fr) t (numContSafe_expSafe ht)
      rw [hexrep]
      simp
    · rcases hexL with hexe | ⟨_, hexh⟩
      · subst hexe
        exact numContSafe_fracSafe ht
      · cases ex with
        | nil => exact numContSafe_fracSafe ht
        | cons e0 ex' =>
          simp only [List.headD_cons] at hexh
          rcases hexh with h1 | h1 <;> subst h1 <;> rfl

lemma parseNumber_spec : ∀ {l lex r : List Char},
    parseNumber l = some (lex, r) →
    l = lex ++ r ∧ lex ≠ [] ∧
      (lex.headD ' ' = '-' ∨ (lex.headD ' ').isDigit = true) ∧
      (lex.getLastD ' ').isDigit = true ∧
      ∀ t, numContSafe t = true → parseNumber (lex ++ t) = some (lex, t) := by
  intro l lex r h
  have hnd : ∀ {t : List Char}, numContSafe t = true →
      ∀ x rr, t = x :: rr → x.isDigit = false := by
    intro t ht x rr hx
    subst hx
    simp only [numContSafe, Bool.not_eq_true', Bool.or_eq_false_iff] at ht
    exact ht.1.1.1
  have hfeHnd : ∀ {fe t : List Char}, (fe = [] ∨ fe.headD ' ' = '.'
        ∨ fe.headD ' ' = 'e' ∨ fe.headD ' ' = 'E') →
      numContSafe t = true →
      ∀ x rr, fe ++ t = x :: rr → x.isDigit = false := by
    intro fe t hfeH ht x rr hx
    cases fe with
    | nil => exact hnd ht x rr (by simpa using hx)
    | cons y fy =>
      simp only [List.cons_append, List.cons.injEq] at hx
      simp only [List.headD_cons] at hfeH
      rcases hfeH with h1 | h1 | h1 | h1
      · exact absurd h1 (by simp)
      all_goals rw [hx.1] at h1; subst h1; rfl
  cases l with
  | nil => simp [parseNumber] at h
  | cons c0 r0 =>
    rw [parseNumber.eq_def] at h
    dsimp only at h
    by_cases hm : c0 = '-'
    · rw [if_pos hm] at h
      dsimp only at h
      cases r0 with
      | nil => exact absurd h (by simp)
      | cons c r1 =>
        dsimp only at h
        by_cases hc0 : c = '0'
        · rw [if_pos hc0] at h
          rw [Option.some.injEq] at h
          obtain ⟨fe, hfe1, hfe2, hfeL, hfeH, hfeR⟩ := fracExp_spec h
          subst hm; subst hc0
          have hlex : lex = '-' :: '0' :: fe := by simpa using hfe1
          subst hlex
          refine ⟨by simp [hfe2], by simp, Or.inl rfl, ?_, fun t ht => ?_⟩
          · rcases hfeL with hfee | hfed
            · subst hfee; decide
            · rw [List.getLastD_cons, List.getLastD_cons]
              cases fe with
              | nil => decide
              | cons x fx =>
                rw [List.getLastD_cons] at hfed ⊢
                exact hfed
          · rw [parseNumber.eq_def]
            simp only [List.cons_append]
            have h2 := hfeR (['-'] ++ ['0']) t ht
            simp only [List.cons_append, List.nil_append,
              List.append_assoc] at h2 ⊢
            simp [h2]
        · rw [if_neg hc0] at h
          by_cases hcd : c.isDigit
          · rw [if_pos hcd] at h
            rw [Option.some.injEq] at h
            obtain ⟨hr1, hdall, hstop⟩ := takeDigits_spec (l := r1)
              (d := (takeDigits r1).1) (r := (takeDigits r1).2) rfl
            obtain ⟨fe, hfe1, hfe2, hfeL, hfeH, hfeR⟩ := fracExp_spec h
            subst hm
            have hlex : lex = '-' :: c :: ((takeDigits r1).1 ++ fe) := by
              simpa using hfe1
            subst hlex
            refine ⟨?_, by simp, Or.inl rfl, ?_, fun t ht => ?_⟩
            · conv_lhs => rw [hr1]
              rw [hfe2]
              simp
            · rw [List.getLastD_cons, List.getLastD_cons]
              rcases hfeL with hfee | hfed
              · subst hfee
                simp only [List.append_nil]
                have h3 := getLastD_all (l := (takeDigits r1).1) (a := c)
                  (d := ' ') hcd hdall
                rwa [List.getLastD_cons] at h3
              · cases hfe0 : fe with
                | nil => subst hfe0; exact absurd hfed (by decide)
                | cons x fx =>
                  rw [getLastD_append_ne (by simp), List.getLastD_cons]
                  have h3 := hfe0 ▸ hfed
                  rwa [List.getLastD_cons] at h3
            · rw [parseNumber.eq_def]
              simp only [List.cons_append]
              have htd : takeDigits ((takeDigits r1).1 ++ (fe ++ t))
                  = ((takeDigits r1).1, fe ++ t) :=
                takeDigits_append hdall (hfeHnd hfeH ht)
              have hrep := hfeR (['-'] ++ c :: (takeDigits r1).1) t ht
              simp only [List.cons_append, List.nil_append,
                List.append_assoc] at hrep
              rw [List.append_assoc]
              simp [hc0, hcd, htd, hrep]
          · rw [if_neg hcd] at h
            exact absurd h (by simp)
    · rw [if_neg hm] at h
      dsimp only at h
      by_cases hc0 : c0 = '0'
      · rw [if_pos hc0] at h
        rw [Option.some.injEq] at h
        obtain ⟨fe, hfe1, hfe2, hfeL, hfeH, hfeR⟩ := fracExp_spec h
        subst hc0
        have hlex : lex = '0' :: fe := by simpa using hfe1
        subst hlex
        refine ⟨by simp [hfe2], by simp,
          Or.inr (by rw [List.headD_cons]; decide), ?_, fun t ht => ?_⟩
        · rcases hfeL with hfee | hfed
          · subst hfee; decide
          · rw [List.getLastD_cons]
            cases fe with
            | nil => decide
            | cons x fx =>
              rw [List.getLastD_cons] at hfed ⊢
              exact hfed
        · rw [parseNumber.eq_def]
          simp only [List.cons_append]
          have h2 := hfeR ([] ++ ['0']) t ht
          simp only [List.cons_append, List.nil_append,
            List.append_assoc] at h2 ⊢
          simp [h2]
      · rw [if_neg hc0] at h
        by_cases hcd : c0.isDigit
        · rw [if_pos hcd] at h
          rw [Option.some.injEq] at h
          obtain ⟨hr0, hdall, hstop⟩ := takeDigits_spec (l := r0)
            (d := (takeDigits r0).1) (r := (takeDigits r0).2) rfl
          obtain ⟨fe, hfe1, hfe2, hfeL, hfeH, hfeR⟩ := fracExp_spec h
          have hlex : lex = c0 :: ((takeDigits r0).1 ++ fe) := by
            simpa using hfe1
          subst hlex
          refine ⟨?_, by simp, Or.inr (by simpa using hcd), ?_,
            fun t ht => ?_⟩
          · conv_lhs => rw [hr0]
            rw [hfe2]
            simp
          · rw [List.getLastD_cons]
            rcases hfeL with hfee | hfed
            · subst hfee
              simp only [List.append_nil]
              have h3 := getLastD_all (l := (takeDigits r0).1) (a := c0)
                (d := ' ') hcd hdall
              rwa [List.getLastD_cons] at h3
            · cases hfe0 : fe with
              | nil => subst hfe0; exact absurd hfed (by decide)
              | cons x fx =>
                rw [getLastD_append_ne (by simp), List.getLastD_cons]
                have h3 := hfe0 ▸ hfed
                rwa [List.getLastD_cons] at h3
          · rw [parseNumber.eq_def]
            simp only [List.cons_append]
            have hm' : (c0 = '-') = False := by
              simp only [eq_iff_iff, iff_false]
              exact hm
            have htd : takeDigits ((takeDigits r0).1 ++ (fe ++ t))
                = ((takeDigits r0).1, fe ++ t) :=
              takeDigits_append hdall (hfeHnd hfeH ht)
            have hrep := hfeR ([] ++ c0 :: (takeDigits r0).1) t ht
            simp only [List.cons_append, List.nil_append,
              List.append_assoc] at hrep
            rw [List.append_assoc]
            simp [hm', hc0, hcd, htd, hrep]
        · rw [if_neg hcd] at h
          exact absurd h (by simp)

lemma getLastD_irrel {l : List Char} (h : l ≠ []) (d d' : Char) :
    l.getLastD d = l.getLastD d' := by
  cases l with
  | nil => exact absurd rfl h
  | cons a l => rw [List.getLastD_cons, List.getLastD_cons]

lemma headD_append_ne {xs ys : List Char} {d : Char} (h : xs ≠ []) :
    (xs ++ ys).headD d = xs.headD d := by
  cases xs with
  | nil => exact absurd rfl h
  | cons a xs' => rfl

lemma skipWs_nonWsHead {pv X : List Char} (hne : pv ≠ [])
    (hh : isJsonWs (pv.headD ' ') = false) : skipWs (pv ++ X) = pv ++ X := by
  cases pv with
  | nil => exact absurd rfl hne
  | cons a pv' =>
    simp only [List.headD_cons] at hh
    exact skipWs_cons_false hh

lemma master_items_step {f : Nat} (hV : MasterV f) (hI : MasterI f) :
    MasterI (f + 1) := by
  intro acc l v r h
  rw [parseItems.eq_def] at h
  dsimp only at h
  obtain ⟨w, hw, hwall⟩ := skipWs_decomp l
  cases hs : skipWs l with
  | nil => rw [hs] at h; simp at h
  | cons c r1 =>
    rw [hs] at h hw
    dsimp only at h
    by_cases hc : c = ','
    · rw [if_pos hc] at h
      cases hpv : parseValue f (skipWs r1) with
      | none => rw [hpv] at h; simp at h
      | some vr =>
        obtain ⟨v1, rv⟩ := vr
        rw [hpv] at h
        simp only [Option.some_bind] at h
        obtain ⟨w2, hw2, hw2all⟩ := skipWs_decomp r1
        obtain ⟨pv, hpv1, hpvne, hpvh, hpvl, hpvV⟩ := hV _ _ _ hpv
        obtain ⟨pi, hpi1, hpine, hpih, hpil, hpiV⟩ := hI _ _ _ _ h
        subst hc
        refine ⟨w ++ ',' :: (w2 ++ pv ++ pi), ?_, by simp, ?_, ?_, ?_⟩
        · rw [hw, hw2, hpv1, hpi1]
          simp
        · cases w with
          | nil => rfl
          | cons a w' => simp [List.cons_append, safeTail,
              hwall a (List.mem_cons_self a w')]
        · rw [getLastD_append_ne (by simp), List.getLastD_cons,
            List.append_assoc, getLastD_append_ne (by simp [hpine]),
            getLastD_append_ne hpine]
          rw [getLastD_irrel hpine _ ' ']
          exact hpil
        · intro t f' hlen
          cases f' with
          | zero => exact absurd hlen (Nat.not_lt_zero _)
          | succ f'' =>
            simp only [List.length_append, List.length_cons] at hlen
            rw [parseItems.eq_def]
            dsimp only
            simp only [List.append_assoc, List.cons_append]
            rw [skipWs_append_all hwall,
              skipWs_cons_false (by decide : isJsonWs ',' = false)]
            dsimp only
            rw [if_pos rfl]
            rw [skipWs_append_all hw2all,
              skipWs_nonWsHead hpvne (starter_not_jsonWs hpvh),
              hpvV (pi ++ t) f'' (safeTail_append hpine hpih) (by omega)]
            simp only [Option.some_bind]
            exact hpiV t f'' (by omega)
    · by_cases hc2 : c = ']'
      · rw [if_neg hc, if_pos hc2] at h
        rw [Option.some.injEq, Prod.mk.injEq] at h
        obtain ⟨hv, hr⟩ := h
        subst hv; subst hr; subst hc2
        refine ⟨w ++ [']'], by rw [hw]; simp, by simp, ?_, ?_, ?_⟩
        · cases w with
          | nil => rfl
          | cons a w' => simp [List.cons_append, safeTail,
              hwall a (List.mem_cons_self a w')]
        · rw [getLastD_append_ne (by simp)]
          rfl
        · intro t f' hlen
          cases f' with
          | zero => exact absurd hlen (Nat.not_lt_zero _)
          | succ f'' =>
            rw [parseItems.eq_def]
            dsimp only
            simp only [List.append_assoc, List.cons_append,
              List.nil_append]
            rw [skipWs_append_all hwall,
              skipWs_cons_false (by decide : isJsonWs ']' = false)]
            dsimp only
            rw [if_neg (by decide : ¬(']' = ',')), if_pos rfl]
      · rw [if_neg hc, if_neg hc2] at h
        simp at h

lemma master_members_step {f : Nat} (hV : MasterV f) (hM : MasterM f) :
    MasterM (f + 1) := by
  intro acc l v r h
  cases l with
  | nil => simp [parseMembers] at h
  | cons c r0 =>
    rw [parseMembers.eq_def] at h
    dsimp only at h
    by_cases hq : c = '"'
    · rw [if_pos hq] at h
      cases hk : parseStringBody r0 with
      | none => rw [hk] at h; simp at h
      | some kr =>
        obtain ⟨key, m1⟩ := kr
        rw [hk] at h
        simp only [Option.some_bind] at h
        obtain ⟨hkdec, hkrep⟩ := psb_spec r0.length r0 key m1 le_rfl hk
        obtain ⟨w1, hw1, hw1all⟩ := skipWs_decomp m1
        cases hs1 : skipWs m1 with
        | nil => rw [hs1] at h; simp at h
        | cons c2 r2 =>
          rw [hs1] at h hw1
          dsimp only at h
          by_cases hcol : c2 = ':'
          · rw [if_pos hcol] at h
            cases hpv : parseValue f (skipWs r2) with
            | none => rw [hpv] at h; simp at h
            | some vr =>
              obtain ⟨v1, rv⟩ := vr
              rw [hpv] at h
              simp only [Option.some_bind] at h
              obtain ⟨w2, hw2, hw2all⟩ := skipWs_decomp r2
              obtain ⟨pv, hpv1, hpvne, hpvh, hpvl, hpvV⟩ := hV _ _ _ hpv
              obtain ⟨w3, hw3, hw3all⟩ := skipWs_decomp rv
              cases hs3 : skipWs rv with
              | nil => rw [hs3] at h; simp at h
              | cons c3 r3 =>
                rw [hs3] at h hw3
                dsimp only at h
                by_cases hcom : c3 = ','
                · rw [if_pos hcom] at h
                  obtain ⟨w4, hw4, hw4all⟩ := skipWs_decomp r3
                  obtain ⟨pm, hpm1, hpmne, hpmh, hpml, hpmV⟩ :=
                    hM _ _ _ _ h
                  subst hq; subst hcol; subst hcom
                  refine ⟨'"' :: ((key ++ '"' :: (w1 ++ ':' ::
                    (w2 ++ pv ++ w3 ++ ',' :: w4))) ++ pm), ?_, by simp,
                    rfl, ?_, ?_⟩
                  · rw [hkdec, hw1, hw2, hpv1, hw3, hw4, hpm1]
                    simp
                  · rw [List.getLastD_cons, getLastD_append_ne hpmne,
                      getLastD_irrel hpmne _ ' ']
                    exact hpml
                  · intro t f' hlen
                    cases f' with
                    | zero => exact absurd hlen (Nat.not_lt_zero _)
                    | succ f'' =>
                      simp only [List.length_cons, List.length_append]
                        at hlen
                      rw [parseMembers.eq_def]
                      simp only [List.cons_append, List.append_assoc]
                      try dsimp only
                      try rw [if_pos rfl]
                      try rw [if_pos trivial]
                      rw [hkrep]
                      simp only [Option.some_bind]
                      rw [skipWs_append_all hw1all,
                        skipWs_cons_false (by decide : isJsonWs ':' = false)]
                      dsimp only
                      rw [if_pos rfl]
                      rw [skipWs_append_all hw2all,
                        skipWs_nonWsHead hpvne (starter_not_jsonWs hpvh)]
                      have hst : safeTail (w3 ++ ',' :: (w4 ++ (pm ++ t)))
                          = true := by
                        cases w3 with
                        | nil => rfl
                        | cons a w3' =>
                          simp [List.cons_append, safeTail,
                            hw3all a (List.mem_cons_self a w3')]
                      rw [hpvV (w3 ++ ',' :: (w4 ++ (pm ++ t))) f'' hst
                        (by omega)]
                      simp only [Option.some_bind]
                      rw [skipWs_append_all hw3all,
                        skipWs_cons_false (by decide : isJsonWs ',' = false)]
                      dsimp only
                      rw [if_pos rfl]
                      rw [skipWs_append_all hw4all,
                        skipWs_nonWsHead hpmne (by
                          rw [hpmh]; decide)]
                      exact hpmV t f'' (by omega)
                · by_cases hbr : c3 = '}'
                  · rw [if_neg hcom, if_pos hbr] at h
                    rw [Option.some.injEq, Prod.mk.injEq] at h
                    obtain ⟨hv, hr⟩ := h
                    subst hv; subst hr; subst hq; subst hcol; subst hbr
                    refine ⟨'"' :: ((key ++ '"' :: (w1 ++ ':' ::
                      (w2 ++ pv ++ w3))) ++ ['}']), ?_, by simp,
                      rfl, ?_, ?_⟩
                    · rw [hkdec, hw1, hw2, hpv1, hw3]
                      simp
                    · rw [List.getLastD_cons,
                        getLastD_append_ne (by simp)]
                      rfl
                    · intro t f' hlen
                      cases f' with
                      | zero => exact absurd hlen (Nat.not_lt_zero _)
                      | succ f'' =>
                        simp only [List.length_cons, List.length_append]
                          at hlen
                        rw [parseMembers.eq_def]
                        simp only [List.cons_append, List.append_assoc,
                          List.nil_append]
                        try dsimp only
                        try rw [if_pos rfl]
                        try rw [if_pos trivial]
                        rw [hkrep]
                        simp only [Option.some_bind]
                        rw [skipWs_append_all hw1all,
                          skipWs_cons_false
                            (by decide : isJsonWs ':' = false)]
                        dsimp only
                        rw [if_pos rfl]
                        rw [skipWs_append_all hw2all,
                          skipWs_nonWsHead hpvne (starter_not_jsonWs hpvh)]
                        have hst : safeTail (w3 ++ '}' :: t) = true := by
                          cases w3 with
                          | nil => rfl
                          | cons a w3' =>
                            simp [List.cons_append, safeTail,
                              hw3all a (List.mem_cons_self a w3')]
                        rw [hpvV (w3 ++ '}' :: t) f'' hst (by omega)]
                        simp only [Option.some_bind]
                        rw [skipWs_append_all hw3all,
                          skipWs_cons_false
                            (by decide : isJsonWs '}' = false)]
                        dsimp only
                        rw [if_neg (by decide : ¬('}' = ',')), if_pos rfl]
                  · rw [if_neg hcom, if_neg hbr] at h
                    simp at h
          · rw [if_neg hcol] at h
            simp at h
    · rw [if_neg hq] at h
      simp at h

/-- The one-step unfolding of `parseValue` on a cons cell (stated by hand:
its if-chain mirrors the definition literally). -/
lemma parseValue_cons (f : Nat) (c : Char) (r : List Char) :
    parseValue (f + 1) (c :: r) =
    (if c = '"' then
      (parseStringBody r).map (fun p => (Json.str (String.mk p.1), p.2))
    else if c = '{' then
      (match skipWs r with
       | [] => none
       | c2 :: r2 =>
         if c2 = '}' then some (Json.obj [], r2)
         else parseMembers f [] (c2 :: r2))
    else if c = '[' then
      (match skipWs r with
       | [] => none
       | c2 :: r2 =>
         if c2 = ']' then some (Json.arr [], r2)
         else (parseValue f (c2 :: r2)).bind (fun vr =>
           parseItems f [vr.1] vr.2))
    else if c = 't' then
      (match r with
       | a :: b :: c3 :: r2 =>
         if a = 'r' && b = 'u' && c3 = 'e' then some (Json.boolean true, r2)
         else none
       | _ => none)
    else if c = 'f' then
      (match r with
       | a :: b :: c3 :: d :: r2 =>
         if a = 'a' && b = 'l' && c3 = 's' && d = 'e' then
           some (Json.boolean false, r2)
         else none
       | _ => none)
    else if c = 'n' then
      (match r with
       | a :: b :: c3 :: r2 =>
         if a = 'u' && b = 'l' && c3 = 'l' then some (Json.null, r2)
         else none
       | _ => none)
    else if c = 'N' then
      (match r with
       | a :: b :: r2 =>
         if a = 'a' && b = 'N' then some (Json.num "NaN", r2)
         else none
       | _ => none)
    else if c = 'I' then
      (match r with
       | a :: b :: c3 :: d :: e :: g :: i :: r2 =>
         if a = 'n' && b = 'f' && c3 = 'i' && d = 'n' && e = 'i' && g = 't'
             && i = 'y' then
           some (Json.num "Infinity", r2)
         else none
       | _ => none)
    else if c = '-' || c.isDigit then
      (match parseNumber (c :: r) with
       | some p => some (Json.num (String.mk p.1), p.2)
       | none =>
         if c = '-' then
           (match r with
            | a :: b :: c3 :: d :: e :: g :: i :: j :: r2 =>
              if a = 'I' && b = 'n' && c3 = 'f' && d = 'i' && e = 'n'
                  && g = 'i' && i = 't' && j = 'y' then
                some (Json.num "-Infinity", r2)
              else none
            | _ => none)
         else none)
    else none) := rfl

lemma master_value_step {f : Nat} (hV : MasterV f) (hI : MasterI f)
    (hM : MasterM f) : MasterV (f + 1) := by
  intro l v r h
  cases l with
  | nil => simp [parseValue] at h
  | cons c r0 =>
    rw [parseValue_cons] at h
    by_cases hq : c = '"'
    · rw [if_pos hq] at h
      cases hk : parseStringBody r0 with
      | none => rw [hk] at h; simp at h
      | some kr =>
        obtain ⟨body, m1⟩ := kr
        rw [hk] at h
        simp only [Option.map_some', Option.some.injEq,
          Prod.mk.injEq] at h
        obtain ⟨hv, hr⟩ := h
        subst hv; subst hr; subst hq
        obtain ⟨hkdec, hkrep⟩ := psb_spec r0.length r0 body m1 le_rfl hk
        refine ⟨'"' :: (body ++ ['"']), ?_, by simp, rfl, ?_, ?_⟩
        · rw [hkdec]; simp
        · rw [List.getLastD_cons, getLastD_append_ne (by simp)]
          decide
        · intro t f' hst hlen
          cases f' with
          | zero => exact absurd hlen (Nat.not_lt_zero _)
          | succ f'' =>
            simp only [List.cons_append, List.append_assoc,
              List.nil_append]
            rw [parseValue_cons, if_pos rfl, hkrep]
            rfl
    · rw [if_neg hq] at h
      by_cases hob : c = '{'
      · rw [if_pos hob] at h
        obtain ⟨w, hw, hwall⟩ := skipWs_decomp r0
        cases hs : skipWs r0 with
        | nil => rw [hs] at h; simp at h
        | cons c2 r2 =>
          rw [hs] at h hw
          dsimp only at h
          by_cases hcb : c2 = '}'
          · rw [if_pos hcb] at h
            rw [Option.some.injEq, Prod.mk.injEq] at h
            obtain ⟨hv, hr⟩ := h
            subst hv; subst hr; subst hob; subst hcb
            refine ⟨'{' :: (w ++ ['}']), by rw [hw]; simp, by simp,
              rfl, ?_, ?_⟩
            · rw [List.getLastD_cons, getLastD_append_ne (by simp)]
              decide
            · intro t f' hst hlen
              cases f' with
              | zero => exact absurd hlen (Nat.not_lt_zero _)
              | succ f'' =>
                simp only [List.cons_append, List.append_assoc,
                  List.nil_append]
                rw [parseValue_cons, if_neg (by decide : ¬('{' = '"')),
                  if_pos rfl]
                rw [skipWs_append_all hwall,
                  skipWs_cons_false (by decide : isJsonWs '}' = false)]
                dsimp only
                rw [if_pos rfl]
          · rw [if_neg hcb] at h
            obtain ⟨pm, hpm1, hpmne, hpmh, hpml, hpmV⟩ := hM _ _ _ _ h
            subst hob
            refine ⟨'{' :: (w ++ pm), ?_, by simp, rfl, ?_, ?_⟩
            · rw [hw, hpm1]; simp
            · rw [List.getLastD_cons, getLastD_append_ne hpmne,
                getLastD_irrel hpmne _ ' ', hpml]
              decide
            · intro t f' hst hlen
              cases f' with
              | zero => exact absurd hlen (Nat.not_lt_zero _)
              | succ f'' =>
                simp only [List.length_cons, List.length_append] at hlen
                simp only [List.cons_append, List.append_assoc,
                  List.nil_append]
                rw [parseValue_cons, if_neg (by decide : ¬('{' = '"')),
                  if_pos rfl]
                rw [skipWs_append_all hwall,
                  skipWs_nonWsHead hpmne (by rw [hpmh]; decide)]
                cases hpc : pm with
                | nil => exact absurd hpc hpmne
                | cons a pm' =>
                  subst hpc
                  simp only [List.headD_cons] at hpmh
                  subst hpmh
                  simp only [List.cons_append]
                  try dsimp only
                  rw [if_neg (by decide : ¬('"' = '}'))]
                  have := hpmV t f'' (by omega)
                  simpa using this
      · rw [if_neg hob] at h
        by_cases har : c = '['
        · rw [if_pos har] at h
          obtain ⟨w, hw, hwall⟩ := skipWs_decomp r0
          cases hs : skipWs r0 with
          | nil => rw [hs] at h; simp at h
          | cons c2 r2 =>
            rw [hs] at h hw
            dsimp only at h
            by_cases hcb : c2 = ']'
            · rw [if_pos hcb] at h
              rw [Option.some.injEq, Prod.mk.injEq] at h
              obtain ⟨hv, hr⟩ := h
              subst hv; subst hr; subst har; subst hcb
              refine ⟨'[' :: (w ++ [']']), by rw [hw]; simp, by simp,
                rfl, ?_, ?_⟩
              · rw [List.getLastD_cons, getLastD_append_ne (by simp)]
                decide
              · intro t f' hst hlen
                cases f' with
                | zero => exact absurd hlen (Nat.not_lt_zero _)
                | succ f'' =>
                  simp only [List.cons_append, List.append_assoc,
                    List.nil_append]
                  rw [parseValue_cons, if_neg (by decide : ¬('[' = '"')),
                    if_neg (by decide : ¬('[' = '{')), if_pos rfl]
                  rw [skipWs_append_all hwall,
                    skipWs_cons_false (by decide : isJsonWs ']' = false)]
                  dsimp only
                  rw [if_pos rfl]
            · rw [if_neg hcb] at h
              cases hpv : parseValue f (c2 :: r2) with
              | none => rw [hpv] at h; simp at h
              | some vr =>
                obtain ⟨v1, rv⟩ := vr
                rw [hpv] at h
                simp only [Option.some_bind] at h
                obtain ⟨pv, hpv1, hpvne, hpvh, hpvl, hpvV⟩ := hV _ _ _ hpv
                obtain ⟨pi, hpi1, hpine, hpih, hpil, hpiV⟩ := hI _ _ _ _ h
                subst har
                refine ⟨'[' :: (w ++ pv ++ pi), ?_, by simp, rfl,
                  ?_, ?_⟩
                · rw [hw, hpv1, hpi1]; simp
                · rw [List.getLastD_cons, List.append_assoc,
                    getLastD_append_ne (by simp [hpine]),
                    getLastD_append_ne hpine,
                    getLastD_irrel hpine _ ' ', hpil]
                  decide
                · intro t f' hst hlen
                  cases f' with
                  | zero => exact absurd hlen (Nat.not_lt_zero _)
                  | succ f'' =>
                    simp only [List.length_cons, List.length_append]
                      at hlen
                    simp only [List.cons_append, List.append_assoc,
                      List.nil_append]
                    rw [parseValue_cons,
                      if_neg (by decide : ¬('[' = '"')),
                      if_neg (by decide : ¬('[' = '{')), if_pos rfl]
                    rw [skipWs_append_all hwall,
                      skipWs_nonWsHead hpvne (starter_not_jsonWs hpvh)]
                    cases hpc : pv with
                    | nil => exact absurd hpc hpvne
                    | cons a pv' =>
                      subst hpc
                      simp only [List.headD_cons] at hpvh
                      simp only [List.cons_append]
                      try dsimp only
                      rw [if_neg (by
                        intro he
                        subst he
                        exact absurd rfl (starter_ne_close hpvh).1)]
                      have hrepv := hpvV (pi ++ t) f''
                        (safeTail_append hpine hpih)
                        (by simp only [List.length_cons] at hlen ⊢; omega)
                      simp only [List.cons_append, List.append_assoc]
                        at hrepv
                      rw [hrepv]
                      simp only [Option.some_bind]
                      have hlen2 : pi.length < f'' := by
                        simp only [List.length_cons] at hlen
                        omega
                      exact hpiV t f'' hlen2
        · rw [if_neg har] at h
          by_cases ht' : c = 't'
          · rw [if_pos ht'] at h
            cases r0 with
            | nil => simp at h
            | cons a r0a =>
            cases r0a with
            | nil => simp at h
            | cons b r0b =>
            cases r0b with
            | nil => simp at h
            | cons c3 r2 =>
            try dsimp only at h
            by_cases hcond : (a = 'r' && b = 'u' && c3 = 'e') = true
            · rw [if_pos hcond] at h
              rw [Option.some.injEq, Prod.mk.injEq] at h
              obtain ⟨hv, hr⟩ := h
              subst hv; subst hr; subst ht'
              simp only [Bool.and_eq_true, decide_eq_true_eq] at hcond
              obtain ⟨⟨ha, hb⟩, hc3⟩ := hcond
              subst ha; subst hb; subst hc3
              refine ⟨['t', 'r', 'u', 'e'], by simp, by simp, by decide,
                by decide, ?_⟩
              intro t f' hst hlen
              cases f' with
              | zero => exact absurd hlen (Nat.not_lt_zero _)
              | succ f'' =>
                simp only [List.cons_append, List.nil_append]
                rw [parseValue_cons]
                simp
            · rw [if_neg hcond] at h; simp at h
          · rw [if_neg ht'] at h
            by_cases hf' : c = 'f'
            · rw [if_pos hf'] at h
              cases r0 with
              | nil => simp at h
              | cons a r0a =>
              cases r0a with
              | nil => simp at h
              | cons b r0b =>
              cases r0b with
              | nil => simp at h
              | cons c3 r0c =>
              cases r0c with
              | nil => simp at h
              | cons d r2 =>
              try dsimp only at h
              by_cases hcond : (a = 'a' && b = 'l' && c3 = 's'
                  && d = 'e') = true
              · rw [if_pos hcond] at h
                rw [Option.some.injEq, Prod.mk.injEq] at h
                obtain ⟨hv, hr⟩ := h
                subst hv; subst hr; subst hf'
                simp only [Bool.and_eq_true, decide_eq_true_eq] at hcond
                obtain ⟨⟨⟨ha, hb⟩, hc3⟩, hd⟩ := hcond
                subst ha; subst hb; subst hc3; subst hd
                refine ⟨['f', 'a', 'l', 's', 'e'], by simp, by simp,
                  by decide, by decide, ?_⟩
                intro t f' hst hlen
                cases f' with
                | zero => exact absurd hlen (Nat.not_lt_zero _)
                | succ f'' =>
                  simp only [List.cons_append, List.nil_append]
                  rw [parseValue_cons]
                  simp
              · rw [if_neg hcond] at h; simp at h
            · rw [if_neg hf'] at h
              by_cases hn' : c = 'n'
              · rw [if_pos hn'] at h
                cases r0 with
                | nil => simp at h
                | cons a r0a =>
                cases r0a with
                | nil => simp at h
                | cons b r0b =>
                cases r0b with
                | nil => simp at h
                | cons c3 r2 =>
                try dsimp only at h
                by_cases hcond : (a = 'u' && b = 'l' && c3 = 'l') = true
                · rw [if_pos hcond] at h
                  rw [Option.some.injEq, Prod.mk.injEq] at h
                  obtain ⟨hv, hr⟩ := h
                  subst hv; subst hr; subst hn'
                  simp only [Bool.and_eq_true, decide_eq_true_eq] at hcond
                  obtain ⟨⟨ha, hb⟩, hc3⟩ := hcond
                  subst ha; subst hb; subst hc3
                  refine ⟨['n', 'u', 'l', 'l'], by simp, by simp,
                    by decide, by decide, ?_⟩
                  intro t f' hst hlen
                  cases f' with
                  | zero => exact absurd hlen (Nat.not_lt_zero _)
                  | succ f'' =>
                    simp only [List.cons_append, List.nil_append]
                    rw [parseValue_cons]
                    simp
                · rw [if_neg hcond] at h; simp at h
              · rw [if_neg hn'] at h
                by_cases hN' : c = 'N'
                · rw [if_pos hN'] at h
                  cases r0 with
                  | nil => simp at h
                  | cons a r0a =>
                  cases r0a with
                  | nil => simp at h
                  | cons b r2 =>
                  try dsimp only at h
                  by_cases hcond : (a = 'a' && b = 'N') = true
                  · rw [if_pos hcond] at h
                    rw [Option.some.injEq, Prod.mk.injEq] at h
                    obtain ⟨hv, hr⟩ := h
                    subst hv; subst hr; subst hN'
                    simp only [Bool.and_eq_true, decide_eq_true_eq]
                      at hcond
                    obtain ⟨ha, hb⟩ := hcond
                    subst ha; subst hb
                    refine ⟨['N', 'a', 'N'], by simp, by simp,
                      by decide, by decide, ?_⟩
                    intro t f' hst hlen
                    cases f' with
                    | zero => exact absurd hlen (Nat.not_lt_zero _)
                    | succ f'' =>
                      simp only [List.cons_append, List.nil_append]
                      rw [parseValue_cons]
                      simp
                  · rw [if_neg hcond] at h; simp at h
                · rw [if_neg hN'] at h
                  by_cases hI' : c = 'I'
                  · rw [if_pos hI'] at h
                    cases r0 with
                    | nil => simp at h
                    | cons a r0a =>
                    cases r0a with
                    | nil => simp at h
                    | cons b r0b =>
                    cases r0b with
                    | nil => simp at h
                    | cons c3 r0c =>
                    cases r0c with
                    | nil => simp at h
                    | cons d r0d =>
                    cases r0d with
                    | nil => simp at h
                    | cons e r0e =>
                    cases r0e with
                    | nil => simp at h
                    | cons g r0f =>
                    cases r0f with
                    | nil => simp at h
                    | cons i r2 =>
                    try dsimp only at h
                    by_cases hcond : (a = 'n' && b = 'f' && c3 = 'i'
                        && d = 'n' && e = 'i' && g = 't' && i = 'y') = true
                    · rw [if_pos hcond] at h
                      rw [Option.some.injEq, Prod.mk.injEq] at h
                      obtain ⟨hv, hr⟩ := h
                      subst hv; subst hr; subst hI'
                      simp only [Bool.and_eq_true, decide_eq_true_eq]
                        at hcond
                      obtain ⟨⟨⟨⟨⟨⟨ha, hb⟩, hc3⟩, hd⟩, he⟩, hg⟩, hi⟩ :=
                        hcond
                      subst ha; subst hb; subst hc3; subst hd; subst he
                      subst hg; subst hi
                      refine ⟨['I', 'n', 'f', 'i', 'n', 'i', 't', 'y'],
                        by simp, by simp, by decide, by decide, ?_⟩
                      intro t f' hst hlen
                      cases f' with
                      | zero => exact absurd hlen (Nat.not_lt_zero _)
                      | succ f'' =>
                        simp only [List.cons_append, List.nil_append]
                        rw [parseValue_cons]
                        simp
                    · rw [if_neg hcond] at h; simp at h
                  · rw [if_neg hI'] at h
                    by_cases hnum : (c = '-' || c.isDigit) = true
                    · rw [if_pos hnum] at h
                      cases hpn : parseNumber (c :: r0) with
                      | some p =>
                        obtain ⟨lex, rest⟩ := p
                        rw [hpn] at h
                        dsimp only at h
                        rw [Option.some.injEq, Prod.mk.injEq] at h
                        obtain ⟨hv, hr⟩ := h
                        subst hv; subst hr
                        obtain ⟨hdec, hlexne, hhead, hlast, hrep⟩ :=
                          parseNumber_spec hpn
                        refine ⟨lex, hdec, hlexne, ?_, ?_, ?_⟩
                        · rcases hhead with hh | hh
                          · rw [hh]; decide
                          · simp only [isStarter, Bool.or_eq_true]
                            exact Or.inr hh
                        · exact digit_not_pyWs hlast
                        · intro t f' hst hlen
                          cases f' with
                          | zero => exact absurd hlen (Nat.not_lt_zero _)
                          | succ f'' =>
                            cases lex with
                            | nil => exact absurd rfl hlexne
                            | cons a lex' =>
                              have hac : a = c := by
                                have h2 := hdec
                                simp only [List.cons_append,
                                  List.cons.injEq] at h2
                                exact h2.1.symm
                              subst hac
                              simp only [List.cons_append]
                              rw [parseValue_cons, if_neg hq, if_neg hob,
                                if_neg har, if_neg ht', if_neg hf',
                                if_neg hn', if_neg hN', if_neg hI',
                                if_pos hnum]
                              have hpnr := hrep t (safeTail_numContSafe hst)
                              simp only [List.cons_append] at hpnr
                              rw [hpnr]
                      | none =>
                        rw [hpn] at h
                        dsimp only at h
                        by_cases hmin : c = '-'
                        · rw [if_pos hmin] at h
                          cases r0 with
                          | nil => simp at h
                          | cons a r0a =>
                          cases r0a with
                          | nil => simp at h
                          | cons b r0b =>
                          cases r0b with
                          | nil => simp at h
                          | cons c3 r0c =>
                          cases r0c with
                          | nil => simp at h
                          | cons d r0d =>
                          cases r0d with
                          | nil => simp at h
                          | cons e r0e =>
                          cases r0e with
                          | nil => simp at h
                          | cons g r0f =>
                          cases r0f with
                          | nil => simp at h
                          | cons i r0g =>
                          cases r0g with
                          | nil => simp at h
                          | cons j r2 =>
                          try dsimp only at h
                          by_cases hcond : (a = 'I' && b = 'n' && c3 = 'f'
                              && d = 'i' && e = 'n' && g = 'i' && i = 't'
                              && j = 'y') = true
                          · rw [if_pos hcond] at h
                            rw [Option.some.injEq, Prod.mk.injEq] at h
                            obtain ⟨hv, hr⟩ := h
                            subst hv; subst hr; subst hmin
                            simp only [Bool.and_eq_true, decide_eq_true_eq]
                              at hcond
                            obtain ⟨⟨⟨⟨⟨⟨⟨ha, hb⟩, hc3⟩, hd⟩, he⟩, hg⟩,
                              hi⟩, hj⟩ := hcond
                            subst ha; subst hb; subst hc3; subst hd
                            subst he; subst hg; subst hi; subst hj
                            refine ⟨['-', 'I', 'n', 'f', 'i', 'n', 'i',
                              't', 'y'], by simp, by simp, by decide,
                              by decide, ?_⟩
                            intro t f' hst hlen
                            cases f' with
                            | zero => exact absurd hlen (Nat.not_lt_zero _)
                            | succ f'' =>
                              simp only [List.cons_append, List.nil_append]
                              rw [parseValue_cons]
                              have hpn2 : parseNumber ('-' :: 'I' :: 'n'
                                  :: 'f' :: 'i' :: 'n' :: 'i' :: 't'
                                  :: 'y' :: t) = none := by
                                rw [parseNumber.eq_def]
                                rfl
                              rw [hpn2]
                              simp
                          · rw [if_neg hcond] at h; simp at h
                        · rw [if_neg hmin] at h; simp at h
                    · rw [if_neg hnum] at h; simp at h

theorem parser_master : ∀ f : Nat, MasterV f ∧ MasterI f ∧ MasterM f := by
  intro f
  induction f with
  | zero =>
    exact ⟨fun l v r h => by simp [parseValue] at h,
      fun acc l v r h => by simp [parseItems] at h,
      fun acc l v r h => by simp [parseMembers] at h⟩
  | succ f IH =>
    obtain ⟨IHv, IHi, IHm⟩ := IH
    exact ⟨master_value_step IHv IHi IHm, master_items_step IHv IHi,
      master_members_step IHv IHm⟩

/-! ### From `json.loads` success to `_robust_json_parse` agreement -/

lemma dropWhile_ne {p : Char → Bool} {l : List Char} (hne : l ≠ [])
    (hh : p (l.headD ' ') = false) : l.dropWhile p = l := by
  cases l with
  | nil => exact absurd rfl hne
  | cons a l1 =>
    simp only [List.headD_cons] at hh
    exact dropWhile_cons_false hh

lemma headD_reverse (l : List Char) (d : Char) :
    l.reverse.headD d = l.getLastD d := by
  cases hrev : l.reverse with
  | nil =>
    rw [List.reverse_eq_nil_iff.mp hrev]
    rfl
  | cons a rl =>
    rw [List.getLastD_eq_getLast?, ← List.head?_reverse, hrev]
    rfl

lemma pyStripL_inner {w pre rest : List Char}
    (hwall : ∀ c ∈ w, isJsonWs c = true)
    (hrall : ∀ c ∈ rest, isJsonWs c = true)
    (hne : pre ≠ [])
    (hh : isPyWs (pre.headD ' ') = false)
    (hl : isPyWs (pre.getLastD ' ') = false) :
    pyStripL (w ++ (pre ++ rest)) = pre := by
  unfold pyStripL
  have hw' : ∀ c ∈ w, isPyWs c = true := fun c hc => jsonWs_pyWs (hwall c hc)
  have hr' : ∀ c ∈ rest, isPyWs c = true :=
    fun c hc => jsonWs_pyWs (hrall c hc)
  rw [dropWhile_append_all hw']
  rw [dropWhile_ne (p := isPyWs) (l := pre ++ rest) (by simp [hne])
    (by rw [headD_append_ne hne]; exact hh)]
  rw [List.reverse_append]
  rw [dropWhile_append_all (fun c hc => hr' c (List.mem_reverse.mp hc))]
  rw [dropWhile_ne (p := isPyWs) (l := pre.reverse) (by simp [hne])
    (by rw [headD_reverse]; exact hl)]
  rw [List.reverse_reverse]

lemma startsTicks_false {l : List Char} (h : ¬l.headD ' ' = '`') :
    startsTicks l = false := by
  cases l with
  | nil => rfl
  | cons a l1 =>
    cases l1 with
    | nil => rfl
    | cons b l2 =>
      cases l2 with
      | nil => rfl
      | cons c l3 =>
        simp only [List.headD_cons] at h
        simp [startsTicks, h]

lemma loads_of_valid {pre : List Char} {v : Json} (hne : pre ≠ [])
    (hh : isStarter (pre.headD ' ') = true) (hval : ValidV pre v) :
    loads pre = some v := by
  unfold loads
  rw [show skipWs pre = pre from
    dropWhile_ne hne (starter_not_jsonWs hh)]
  have := hval [] (pre.length + 1) rfl (by omega)
  rw [List.append_nil] at this
  rw [this]
  rfl

lemma robust_of_json_parse {s : String} {v : Json}
    (h : json_parse s = some v) : robust_json_parse s = some v := by
  unfold json_parse loads at h
  cases hp : parseValue (s.data.length + 1) (skipWs s.data) with
  | none => rw [hp] at h; simp at h
  | some vr =>
    obtain ⟨v0, rest⟩ := vr
    rw [hp] at h
    dsimp only at h
    by_cases hres : skipWs rest = []
    · rw [if_pos hres, Option.some.injEq] at h
      subst h
      obtain ⟨pre, hdec, hne, hh, hl, hval⟩ :=
        (parser_master (s.data.length + 1)).1 _ _ _ hp
      obtain ⟨w, hw, hwall⟩ := skipWs_decomp s.data
      have hrall := dropWhile_all_false hres
      have hsdata : s.data = w ++ (pre ++ rest) := by
        rw [hw, hdec]
      have hstrip : pyStripL s.data = pre := by
        rw [hsdata]
        exact pyStripL_inner hwall hrall hne (starter_not_pyWs hh) hl
      unfold robust_json_parse
      rw [hstrip, if_neg hne,
        show fenceClean pre = pre by
          unfold fenceClean
          rw [startsTicks_false (fun he =>
            absurd rfl (he ▸ (starter_ne_close (he ▸ hh)).2.2))]
          simp]
      dsimp only
      rw [loads_of_valid hne hh hval]
    · rw [if_neg hres] at h; simp at h

lemma robust_chain (s : String) (h : ¬pyStripL s.data = []) :
    robust_json_parse s =
      firstSome (fenceClean (pyStripL s.data)
        :: attempts (fenceClean (pyStripL s.data))) := by
  have hrhs : firstSome (fenceClean (pyStripL s.data)
      :: attempts (fenceClean (pyStripL s.data)))
      = (match loads (fenceClean (pyStripL s.data)) with
        | some v => some v
        | none => firstSome (attempts (fenceClean (pyStripL s.data)))) :=
    rfl
  unfold robust_json_parse
  rw [if_neg h]
  dsimp only
  rw [hrhs]
  cases hl : loads (fenceClean (pyStripL s.data)) with
  | some v => rfl
  | none =>
    cases hf : firstSome (attempts (fenceClean (pyStripL s.data))) with
    | some v => rfl
    | none => rfl

/-- C4 counterexample: the spec says the fence lines are stripped "only if
both are present", but the code strips the leading fence line whenever the
string starts with one.  On "```\n\x7b\x7d" (a fence line, then an empty
object, no closing fence) the code strips the lone fence line and parses
the object, while the parser the claim describes strips nothing, fails on
every repair attempt, and raises. -/
theorem claim_C4_robust_parse_counterexample :
    robust_json_parse "```\n\x7b\x7d" = some (Json.obj []) ∧
    robust_per_claim "```\n\x7b\x7d" = none := ⟨rfl, rfl⟩

/-- C4 (amended): `_robust_json_parse` (a) maps every string that strips
to empty to the empty object; (b) agrees with `json.loads` on every string
`json.loads` accepts; (c) on every other input it strips, applies the
(source-order) fence cleanup, and returns the first success of the direct
parse followed by the five suffix repairs in order, `none` (the re-raised
parse error) when all six fail. -/
theorem claim_C4_robust_parse_amended (s : String) (v : Json) :
    (pyStripL s.data = [] → robust_json_parse s = some (Json.obj [])) ∧
    (json_parse s = some v → robust_json_parse s = some v) ∧
    (¬pyStripL s.data = [] →
      robust_json_parse s =
        firstSome (fenceClean (pyStripL s.data)
          :: attempts (fenceClean (pyStripL s.data)))) := by
  refine ⟨fun h => ?_, fun h => robust_of_json_parse h,
    fun h => robust_chain s h⟩
  unfold robust_json_parse
  rw [if_pos h]

/-- Concrete instances of the three conjuncts of the amended C4 theorem:
whitespace-only input, a well-formed object, and a truncated object that
is repaired by the suffix attempts. -/
theorem claim_C4_robust_parse_amended_witness :
    robust_json_parse "  " = some (Json.obj []) ∧
    robust_json_parse " \x7b\"a\": [1]\x7d " = some
      (Json.obj [("a", Json.arr [Json.num "1"])]) ∧
    robust_json_parse "\x7b\"path\": \"f.txt" =
      firstSome (fenceClean (pyStripL "\x7b\"path\": \"f.txt".data)
        :: attempts (fenceClean (pyStripL "\x7b\"path\": \"f.txt".data))) :=
  ⟨(claim_C4_robust_parse_amended "  " Json.null).1 rfl,
   (claim_C4_robust_parse_amended " \x7b\"a\": [1]\x7d "
     (Json.obj [("a", Json.arr [Json.num "1"])])).2.1 rfl,
   (claim_C4_robust_parse_amended "\x7b\"path\": \"f.txt" Json.null).2.2
     (by decide)⟩

end OwnAgent
